import Mathlib

/-!
Verification of the Memory Consolidation & Retrieval Engine
(`memory_store.py`) against its natural-language specification.

Strings from the Python source are modelled as `List Char` (`Str`), so every
operation is an executable, inductively analysable function.  Python string
methods used by the source (`strip`, `lower`, `replace`, slicing, `in`) are
modelled character-for-character; `str.strip()` and the regex class `\s` are
modelled over the ASCII whitespace characters (the source data is ASCII).
Wall-clock timestamps (`datetime.now(...).isoformat()`) are modelled by a
caller-supplied time source `times : Nat -> Str`, one value per candidate
fact, since the engine only ever stores and lexicographically compares these
strings.
-/

namespace MemStore

/-- Strings are modelled as lists of characters. -/
abbrev Str := List Char

/-- The apostrophe character (code point 39). -/
def apos : Char := Char.ofNat 39

/-- Convert a Lean string literal to the `List Char` model. -/
def strL (s : String) : Str := s.data

/-- ASCII whitespace, the characters matched by Python `str.strip()` /
regex `\s` on the ASCII plane: space, tab, newline, carriage return,
vertical tab, form feed. -/
def isWs (c : Char) : Bool :=
  c == Char.ofNat 32 || c == Char.ofNat 9 || c == Char.ofNat 10 ||
  c == Char.ofNat 13 || c == Char.ofNat 11 || c == Char.ofNat 12

/-- Python `str.strip()`: drop leading and trailing whitespace. -/
def trimStr (l : Str) : Str :=
  ((l.dropWhile isWs).reverse.dropWhile isWs).reverse

/-- Python `str.lower()` (ASCII). -/
def lowerStr (l : Str) : Str := l.map Char.toLower

/-- Characters matched by `TOKEN_PATTERN = [a-zA-Z0-9']+`. -/
def isTokChar (c : Char) : Bool :=
  (Char.ofNat 97 ≤ c && c ≤ Char.ofNat 122) ||
  (Char.ofNat 65 ≤ c && c ≤ Char.ofNat 90) ||
  (Char.ofNat 48 ≤ c && c ≤ Char.ofNat 57) ||
  c == apos

/-- Maximal runs of characters satisfying `p`, collected through an
accumulator holding the current run in reverse. -/
def runsByAux (p : Char → Bool) (cur : Str) : Str → List Str
  | [] => if cur.isEmpty then [] else [cur.reverse]
  | c :: cs =>
    if p c then runsByAux p (c :: cur) cs
    else if cur.isEmpty then runsByAux p [] cs
    else cur.reverse :: runsByAux p [] cs

/-- Maximal runs of characters satisfying `p` (the semantics of
`re.findall` on a single-character-class `+` pattern, and of
`str.split()` for the whitespace complement). -/
def runsBy (p : Char → Bool) (l : Str) : List Str :=
  runsByAux p [] l

/-- `_tokenize`: `TOKEN_PATTERN.findall(text)`, each token lowercased. -/
def tokenize (l : Str) : List Str :=
  (runsBy isTokChar l).map lowerStr

/-- Python `text.split()`: maximal runs of non-whitespace. -/
def splitWs (l : Str) : List Str :=
  runsBy (fun c => !isWs c) l

/-! ### Term-frequency vectors and cosine scores

`_term_freq` builds `{token: count/total}`; `_cosine_similarity` computes
`dot / (sqrt (sum a_i^2) * sqrt (sum b_i^2))`.  Floating point is modelled
as exact arithmetic.  Every score the ranker produces has the shape
`num / sqrt den` with `num ≥ 0` and `den > 0`; a `Score` stores that pair
exactly, and comparisons against other scores or a rational threshold are
performed by the order-equivalent cross-multiplied squared forms. -/

/-- `_term_freq(tokens)[k]`: `count(k) / (len(tokens) or 1)`; `0` when `k`
is not a key of the dict. -/
def tf (ts : List Str) (k : Str) : ℚ :=
  (ts.count k : ℚ) / (max ts.length 1 : ℚ)

/-- The dot product `sum over keys of a of a[k] * b.get(k, 0)`. -/
def dotTF (ta tb : List Str) : ℚ :=
  (ta.dedup.map (fun k => tf ta k * tf tb k)).sum

/-- The squared Euclidean norm `sum of value^2` of a term-frequency dict. -/
def normSqTF (ta : List Str) : ℚ :=
  (ta.dedup.map (fun k => tf ta k * tf ta k)).sum

/-- Exact representation of a ranker score: the real value `num / sqrt den`
with `num ≥ 0` and `den > 0`. -/
structure Score where
  num : ℚ
  den : ℚ
  num_nonneg : 0 ≤ num
  den_pos : 0 < den

/-- The score `0.0`. -/
def zeroScore : Score := ⟨0, 1, le_refl 0, one_pos⟩

/-- `s ≤ t` on score values: `num_s / sqrt den_s ≤ num_t / sqrt den_t`,
equivalently (all quantities non-negative) `num_s^2 * den_t ≤ num_t^2 * den_s`. -/
def scoreLeB (s t : Score) : Bool :=
  decide (s.num * s.num * t.den ≤ t.num * t.num * s.den)

/-- `s < t` on score values (cross-multiplied squared form). -/
def scoreLtB (s t : Score) : Bool :=
  decide (s.num * s.num * t.den < t.num * t.num * s.den)

/-- `s == t` on score values (cross-multiplied squared form; Python float
equality is value equality). -/
def scoreEqB (s t : Score) : Bool :=
  decide (s.num * s.num * t.den = t.num * t.num * s.den)

/-- `score >= min_score` for a rational threshold `m`:
`num / sqrt den ≥ m`, i.e. `true` when `m ≤ 0` (scores are non-negative),
else `m^2 * den ≤ num^2`. -/
def scoreGeB (s : Score) (m : ℚ) : Bool :=
  if m ≤ 0 then true else decide (m * m * s.den ≤ s.num * s.num)

theorem tf_nonneg (ts : List Str) (k : Str) : 0 ≤ tf ts k := by
  unfold tf
  positivity

theorem dotTF_nonneg (ta tb : List Str) : 0 ≤ dotTF ta tb := by
  apply List.sum_nonneg
  intro x hx
  obtain ⟨k, _, rfl⟩ := List.mem_map.mp hx
  exact mul_nonneg (tf_nonneg ta k) (tf_nonneg tb k)

theorem normSqTF_nonneg (ta : List Str) : 0 ≤ normSqTF ta := by
  apply List.sum_nonneg
  intro x hx
  obtain ⟨k, _, rfl⟩ := List.mem_map.mp hx
  exact mul_nonneg (tf_nonneg ta k) (tf_nonneg ta k)

/-- `_cosine_similarity` on the token lists of the two texts.  The source
returns `0.0` when either dict is empty (the dict of a text is empty iff its
token list is empty) or when either norm is zero, and otherwise
`dot / (sqrt norm_a_sq * sqrt norm_b_sq)`, represented exactly. -/
def cosineScore (ta tb : List Str) : Score :=
  if ta = [] ∨ tb = [] then zeroScore
  else
    if h : normSqTF ta = 0 ∨ normSqTF tb = 0 then zeroScore
    else
      ⟨dotTF ta tb, normSqTF ta * normSqTF tb, dotTF_nonneg ta tb, by
        rcases not_or.mp h with ⟨ha, hb⟩
        exact mul_pos (lt_of_le_of_ne (normSqTF_nonneg ta) (Ne.symm ha))
          (lt_of_le_of_ne (normSqTF_nonneg tb) (Ne.symm hb))⟩

/-! ### The Memory record and the store state -/

/-- The persisted record: `Memory(fact, created_at, source_user_message)`. -/
structure Memory where
  fact : Str
  created_at : Str
  source_user_message : Str
deriving DecidableEq, Repr

/-- The mutable state of a `MemoryStore`: the in-memory collection and the
collection currently persisted in the backing file (`disk`). -/
structure StoreState where
  memories : List Memory
  disk : List Memory
deriving DecidableEq, Repr

/-- Python string `<` (lexicographic by code point). -/
def strLtB : Str → Str → Bool
  | [], [] => false
  | [], _ :: _ => true
  | _ :: _, [] => false
  | a :: as, b :: bs => if a < b then true else if b < a then false else strLtB as bs

/-- Descending comparison of sort keys `(score, created_at)` as used by
`scored.sort(key=..., reverse=True)`: `x ≥ y` in the Python tuple order. -/
def keyGeB (x y : Score × Str) : Bool :=
  scoreLtB y.1 x.1 || (scoreEqB x.1 y.1 && !strLtB x.2 y.2)

/-- The sort relation for `search`: triples `(score, created_at, memory)`
in descending key order.  A stable sort with this relation models Python's
stable `list.sort(..., reverse=True)`. -/
def searchRel (x y : Score × Str × Memory) : Prop :=
  keyGeB (x.1, x.2.1) (y.1, y.2.1) = true

instance : DecidableRel searchRel := fun x y =>
  decEq (keyGeB (x.1, x.2.1) (y.1, y.2.1)) true

/-- `MemoryStore.search(query, top_k, min_score)` over a collection. -/
def search (ms : List Memory) (q : Str) (topK : ℕ) (minScore : ℚ) : List Memory :=
  let qt := tokenize q
  let scored := ms.filterMap (fun m =>
    let s := cosineScore qt (tokenize m.fact)
    if scoreGeB s minScore then some (s, m.created_at, m) else none)
  ((scored.insertionSort searchRel).take topK).map (fun x => x.2.2)

/-! ### Fact classification -/

/-- `PREF_PATTERN = ^User (likes|dislikes)\s+(.+)$` with `re.IGNORECASE`,
applied (at every call site) to an already-stripped string.  Returns the
polarity (`true` = likes) and group 2 in original case: the text from the
first non-whitespace character after the keyword to the end.  On a stripped
string the pattern matches iff the lowercased input starts with
`user likes` / `user dislikes`, at least one whitespace character follows,
and the rest is non-empty without a newline (`.` does not match `\n`). -/
def prefParse (f : Str) : Option (Bool × Str) :=
  let low := lowerStr f
  let nl : Char := Char.ofNat 10
  if (strL "user likes").isPrefixOf low then
    let rest := f.drop 10
    let item := rest.dropWhile isWs
    if rest.length > item.length ∧ item ≠ [] ∧ ¬ nl ∈ item then
      some (true, item)
    else none
  else if (strL "user dislikes").isPrefixOf low then
    let rest := f.drop 13
    let item := rest.dropWhile isWs
    if rest.length > item.length ∧ item ≠ [] ∧ ¬ nl ∈ item then
      some (false, item)
    else none
  else none

/-- The single-value slot categories. -/
inductive Slot where
  | name | birthday | location | occupation | bestFriend | dogName
deriving DecidableEq, Repr

/-- The prefix `user's name is `. -/
def namePfx : Str := strL "user" ++ apos :: strL "s name is "

/-- The prefix `user's birthday is on `. -/
def birthdayPfx : Str := strL "user" ++ apos :: strL "s birthday is on "

/-- The prefix `user's best friend is `. -/
def bestFriendPfx : Str := strL "user" ++ apos :: strL "s best friend is "

/-- `MemoryStore._single_value_group`: the slot of a fact, decided by
case-insensitive prefix tests on the stripped fact; `none` models the
empty-string return (no slot). -/
def slotGroup (f : Str) : Option Slot :=
  let low := lowerStr (trimStr f)
  if namePfx.isPrefixOf low then some .name
  else if birthdayPfx.isPrefixOf low then some .birthday
  else if (strL "user lives in ").isPrefixOf low then some .location
  else if (strL "user works as ").isPrefixOf low ∨
          (strL "user studies ").isPrefixOf low then some .occupation
  else if bestFriendPfx.isPrefixOf low then some .bestFriend
  else if (strL "user has a dog named ").isPrefixOf low then some .dogName
  else none

/-- `INVALID_NAME_TOKENS`. -/
def invalidNameTokens : List Str :=
  [strL "learning", strL "allergic", strL "training", strL "foodie",
   strL "ok", strL "okay", strL "preparing"]

/-- `MemoryStore._is_invalid_memory`: low-information fragments dropped at
load time.  `len(f.split()) <= 4` counts maximal whitespace-separated runs. -/
def isInvalidMemory (fact : Str) : Bool :=
  let f := lowerStr (trimStr fact)
  (f == strL "user likes to watch" || f == strL "user likes to eat" ||
   f == strL "user likes to play" || f == strL "user likes watch") ||
  ((strL "user likes to ").isPrefixOf f && (splitWs f).length ≤ 4)

/-- Collapse whitespace runs to single spaces
(`re.sub(r"\s+", " ", ...)`): the flag records whether the previous
character belonged to a whitespace run already emitted as one space. -/
def collapseWsAux : Bool → Str → Str
  | _, [] => []
  | inWs, c :: cs =>
    if isWs c then
      if inWs then collapseWsAux true cs
      else Char.ofNat 32 :: collapseWsAux true cs
    else c :: collapseWsAux false cs

/-- `re.sub(r"\s+", " ", ...)`. -/
def collapseWs (l : Str) : Str := collapseWsAux false l

/-- Characters kept by `re.sub(r"[^a-z0-9\s-]", "", ...)`. -/
def isPrefItemChar (c : Char) : Bool :=
  (Char.ofNat 97 ≤ c && c ≤ Char.ofNat 122) ||
  (Char.ofNat 48 ≤ c && c ≤ Char.ofNat 57) ||
  isWs c || c == Char.ofNat 45

/-- `MemoryStore._normalize_pref_item`. -/
def normalizePrefItem (t : Str) : Str :=
  trimStr (collapseWs ((lowerStr (trimStr t)).filter isPrefItemChar))

/-! ### The near-duplicate matcher -/

/-- The two-pointer loop of `_is_near_pref_match`: cursors over both
strings, the length tests inside the loop comparing the *original* lengths
`la`, `lb`; after the loop one unexhausted side costs one further edit.
The `fuel` argument only drives structural recursion; each loop iteration
consumes at least one character from the two strings, so the entry point
`nearScan` supplies enough fuel for the zero-fuel case to be unreachable. -/
def nearScanF : ℕ → ℕ → ℕ → Str → Str → ℕ → Bool
  | _, _, _, [], rest, e => (if rest = [] then e else e + 1) ≤ 1
  | _, _, _, rest, [], e => (if rest = [] then e else e + 1) ≤ 1
  | 0, _, _, _ :: _, _ :: _, _ => false
  | fuel + 1, la, lb, x :: xs, y :: ys, e =>
    if x = y then nearScanF fuel la lb xs ys e
    else if e + 1 > 1 then false
    else if la > lb then nearScanF fuel la lb xs (y :: ys) (e + 1)
    else if lb > la then nearScanF fuel la lb (x :: xs) ys (e + 1)
    else nearScanF fuel la lb xs ys (e + 1)

/-- The two-pointer loop entered on cursors `i = j = 0`, `edits = 0`. -/
def nearScan (la lb : ℕ) (a b : Str) (e : ℕ) : Bool :=
  nearScanF (a.length + b.length) la lb a b e

/-- Python substring containment `a in b` (contiguous). -/
def isInfixB (a : Str) : Str → Bool
  | [] => a.isEmpty
  | c :: cs => a.isPrefixOf (c :: cs) || isInfixB a cs

/-- `MemoryStore._is_near_pref_match` on two normalized item strings:
equality; length-difference gate; substring rule (`in` is contiguous
substring); then the one-edit two-pointer scan. -/
def isNearPrefMatch (a b : Str) : Bool :=
  if a = b then true
  else if ((a.length : ℤ) - b.length).natAbs > 1 then false
  else if (isInfixB a b || isInfixB b a) && min a.length b.length ≥ 4 then true
  else nearScan a.length b.length a b 0

/-! ### Preference upsert and `add_facts` -/

/-- The scan of `_upsert_preference_fact` over the stored memories: the
indexes of near-duplicate preference memories together with their
(stripped, original-case) item strings, in storage order. -/
def prefScan (ms : List Memory) (key : Str) : List (ℕ × Str) :=
  ms.enum.filterMap (fun p =>
    match prefParse (trimStr p.2.fact) with
    | none => none
    | some (_, ei0) =>
      let ei := trimStr ei0
      let ek := normalizePrefItem ei
      if ek ≠ [] ∧ isNearPrefMatch key ek then some (p.1, ei) else none)

/-- Canonical-label selection of `_upsert_preference_fact`: start from the
new item, walk the matched items replacing the running candidate by any
strictly longer one, then let the new item win a final `≥` comparison. -/
def canonicalOf (item : Str) (matchedItems : List Str) : Str :=
  let c := matchedItems.foldl (fun cur ei => if ei.length > cur.length then ei else cur) item
  if item.length ≥ c.length then item else c

/-- `f"User {polarity} {canonical_item}"`. -/
def mkPrefFact (pol : Bool) (canon : Str) : Str :=
  strL "User " ++ (if pol then strL "likes" else strL "dislikes") ++ Char.ofNat 32 :: canon

/-- `MemoryStore._upsert_preference_fact`: returns the new collection and
the accepted-count contribution (1 on fresh append, otherwise 0). -/
def upsertPref (ms : List Memory) (fact : Str) (now : Str) (src : Str) :
    List Memory × ℕ :=
  match prefParse (trimStr fact) with
  | none => (ms, 0)
  | some (pol, item0) =>
    let item := trimStr item0
    if item = [] then (ms, 0)
    else
      let key := normalizePrefItem item
      if key = [] then (ms, 0)
      else
        let scan := prefScan ms key
        let newMem : Memory := ⟨mkPrefFact pol (canonicalOf item (scan.map (fun p => p.2))), now, src⟩
        match scan.map (fun p => p.1) with
        | [] => (ms ++ [newMem], 1)
        | first :: rest =>
          (ms.enum.filterMap (fun p =>
            if p.1 = first then some newMem
            else if p.1 ∈ rest then none
            else some p.2), 0)

/-- `memory.fact.strip().lower()`, the key used by the unstructured dedup
set in `add_facts`. -/
def lowFact (m : Memory) : Str := lowerStr (trimStr m.fact)

/-- The per-fact loop of `add_facts`.  `i` is the position of the current
fact in the argument list; `times i` is the wall-clock reading used for a
memory created while processing fact `i`.  `existing` is the lowered-fact
dedup set (recomputed from the collection after a slot insert, extended
in place after an unstructured insert, untouched by preference upserts). -/
def addFactsAux (src : Str) (times : ℕ → Str) :
    List Str → ℕ → List Memory → List Str → ℕ → List Memory × ℕ
  | [], _, ms, _, added => (ms, added)
  | f :: fs, i, ms, existing, added =>
    let cleaned := trimStr f
    if cleaned = [] then addFactsAux src times fs (i + 1) ms existing added
    else if (prefParse cleaned).isSome then
      let r := upsertPref ms cleaned (times i) src
      addFactsAux src times fs (i + 1) r.1 existing (added + r.2)
    else
      match slotGroup cleaned with
      | some g =>
        let ms2 := ms.filter (fun m => slotGroup m.fact != some g) ++
          [⟨cleaned, times i, src⟩]
        addFactsAux src times fs (i + 1) ms2 (ms2.map lowFact) (added + 1)
      | none =>
        let k := lowerStr cleaned
        if k ∈ existing then addFactsAux src times fs (i + 1) ms existing added
        else addFactsAux src times fs (i + 1) (ms ++ [⟨cleaned, times i, src⟩])
          (k :: existing) (added + 1)

/-- `MemoryStore.add_facts(facts, source_user_message)`: processes the
candidates, then persists the collection exactly when the accepted count is
non-zero.  Returns the new state and the accepted count. -/
def addFacts (s : StoreState) (facts : List Str) (times : ℕ → Str) (src : Str) :
    StoreState × ℕ :=
  let r := addFactsAux src times facts 0 s.memories (s.memories.map lowFact) 0
  (⟨r.1, if r.2 ≠ 0 then r.1 else s.disk⟩, r.2)

/-! ### Persistence: JSON values, decoding, and the load-time repair pass

`_load` reads the file, parses JSON, builds `Memory(**item)` records,
strips a legacy marker from each fact, filters invalid memories, runs both
compaction passes, and re-saves when the count changed; the `except`
clause catches exactly `json.JSONDecodeError`, `TypeError` and `KeyError`.
The file/parse layer is modelled by `LoadInput` (missing file, text that
fails `json.loads`, or a parsed JSON value); `json.dumps`/`json.loads` of
the values this program writes is an exact round trip, so serialization is
modelled at the JSON-value level. -/

/-- JSON values (`json.loads` output).  Numbers are modelled as exact
rationals (float rounding is out of scope); objects are association lists
with distinct keys, as produced by `json.loads`. -/
inductive Json where
  | str (s : Str)
  | num (q : ℚ)
  | jbool (b : Bool)
  | null
  | arr (items : List Json)
  | obj (fields : List (Str × Json))

/-- Python exception classes relevant to `_load`: `jsonDecode`, `typeErr`
and `keyErr` are caught by its `except` clause; `attrErr`
(`AttributeError`) is not caught and propagates to the caller. -/
inductive PyErr where
  | jsonDecode | typeErr | keyErr | attrErr
deriving DecidableEq, Repr

/-- A record as built by `Memory(**item)`: the three fields hold arbitrary
JSON values, because Python dataclasses do not check field types. -/
structure RawMemory where
  fact : Json
  created_at : Json
  source_user_message : Json

/-- A record after the legacy-marker cleanup `m.fact.replace(...).strip()`
succeeded: the fact is known to be a string, the other fields arbitrary. -/
structure CMemory where
  fact : Str
  created_at : Json
  source_user_message : Json

/-- Association-list lookup (first matching key). -/
def alookup {β : Type} (k : Str) : List (Str × β) → Option β
  | [] => none
  | (k2, v) :: rest => if k2 = k then some v else alookup k rest

/-- `Memory(**item)`: requires `item` to be an object carrying exactly the
keys `fact`, `created_at`, `source_user_message` (a missing or extra
keyword argument raises `TypeError`; so does unpacking a non-mapping). -/
def decodeItem : Json → Except PyErr RawMemory
  | Json.obj kvs =>
    match alookup (strL "fact") kvs, alookup (strL "created_at") kvs,
          alookup (strL "source_user_message") kvs with
    | some f, some c, some s =>
      if kvs.length = 3 then Except.ok ⟨f, c, s⟩ else Except.error .typeErr
    | _, _, _ => Except.error .typeErr
  | _ => Except.error .typeErr

/-- `[Memory(**item) for item in raw]`.  Iterating a non-list value either
raises `TypeError` directly (non-iterables) or yields non-mapping elements
(strings/dict keys) whose unpacking raises `TypeError`; both are modelled
as `typeErr`. -/
def decode : Json → Except PyErr (List RawMemory)
  | Json.arr items => items.mapM decodeItem
  | _ => Except.error .typeErr

/-- The legacy marker ` (needs confirmation)`. -/
def marker : Str := strL " (needs confirmation)"

/-- Python `s.replace(" (needs confirmation)", "")`: delete every
(left-to-right, non-overlapping) occurrence.  `fuel` only drives the
structural recursion; each step consumes at least one character, so the
entry point `replaceMarker` supplies enough for the zero-fuel case
(which returns its input unchanged) to be unreachable. -/
def replaceMarkerF : ℕ → Str → Str
  | _, [] => []
  | 0, l => l
  | fuel + 1, c :: cs =>
    if marker.isPrefixOf (c :: cs) then replaceMarkerF fuel ((c :: cs).drop marker.length)
    else c :: replaceMarkerF fuel cs

/-- `s.replace(" (needs confirmation)", "")`. -/
def replaceMarker (l : Str) : Str := replaceMarkerF l.length l

/-- `m.fact = m.fact.replace(" (needs confirmation)", "").strip()`: needs
`m.fact` to be a string; on any other value Python raises
`AttributeError` (no `.replace` attribute). -/
def cleanStep (m : RawMemory) : Except PyErr CMemory :=
  match m.fact with
  | Json.str s =>
    Except.ok ⟨trimStr (replaceMarker s), m.created_at, m.source_user_message⟩
  | _ => Except.error .attrErr

mutual
/-- Python `==` between JSON values, as used elementwise by list
comparison: bools coerce to numbers; mixed types compare unequal without
error.  Object equality is modelled as ordered field-list equality (the
objects this program writes are only ever compared with identical field
order). -/
def jsonEq : Json → Json → Bool
  | Json.str a, Json.str b => a == b
  | Json.num a, Json.num b => a == b
  | Json.jbool a, Json.jbool b => a == b
  | Json.jbool a, Json.num b => (if a then (1 : ℚ) else 0) == b
  | Json.num a, Json.jbool b => a == (if b then (1 : ℚ) else 0)
  | Json.null, Json.null => true
  | Json.arr a, Json.arr b => jsonEqList a b
  | Json.obj a, Json.obj b => jsonEqFields a b
  | _, _ => false

def jsonEqList : List Json → List Json → Bool
  | [], [] => true
  | a :: as, b :: bs => jsonEq a b && jsonEqList as bs
  | _, _ => false

def jsonEqFields : List (Str × Json) → List (Str × Json) → Bool
  | [], [] => true
  | (k1, v1) :: r1, (k2, v2) :: r2 => k1 == k2 && jsonEq v1 v2 && jsonEqFields r1 r2
  | _, _ => false
end

mutual
/-- Python `<` between JSON values, as used by `list.sort` on the
`created_at` keys: strings lexicographically by code point, numbers (and
bools, coerced) numerically, arrays lexicographically; every other pair
raises `TypeError`, modelled as `Except.error ()`. -/
def jsonLtE : Json → Json → Except Unit Bool
  | Json.str a, Json.str b => Except.ok (strLtB a b)
  | Json.num a, Json.num b => Except.ok (decide (a < b))
  | Json.jbool a, Json.jbool b =>
    Except.ok (decide ((if a then (1 : ℚ) else 0) < (if b then (1 : ℚ) else 0)))
  | Json.jbool a, Json.num b => Except.ok (decide ((if a then (1 : ℚ) else 0) < b))
  | Json.num a, Json.jbool b => Except.ok (decide (a < (if b then (1 : ℚ) else 0)))
  | Json.arr a, Json.arr b => jsonLtListE a b
  | _, _ => Except.error ()

def jsonLtListE : List Json → List Json → Except Unit Bool
  | [], [] => Except.ok false
  | [], _ :: _ => Except.ok true
  | _ :: _, [] => Except.ok false
  | a :: as, b :: bs => if jsonEq a b then jsonLtListE as bs else jsonLtE a b
end

/-- Stable insertion of a record into a list ascending by `created_at`,
placing it after every record whose key is `<` it (Python sorts are stable
and compare keys only with `<`; a mixed-type comparison propagates the
`TypeError`). -/
def ordInsertByCreatedE (m : CMemory) : List CMemory → Except Unit (List CMemory)
  | [] => Except.ok [m]
  | x :: xs => do
    let b ← jsonLtE x.created_at m.created_at
    if b then
      let rest ← ordInsertByCreatedE m xs
      pure (x :: rest)
    else pure (m :: x :: xs)

/-- `compacted.sort(key=lambda m: m.created_at)`: a stable ascending sort.
Insertion sort with the same key comparison produces the same list as
Python's stable sort, and errors exactly on mixed-type key comparisons
(for the homogeneous keys this program writes the outcomes coincide, and
every error path here is caught by `_load`). -/
def sortByCreatedE : List CMemory → Except Unit (List CMemory)
  | [] => Except.ok []
  | x :: xs => do
    let s ← sortByCreatedE xs
    ordInsertByCreatedE x s

/-- Association-list update with Python `dict` semantics: replace in place
when the key is present, append when absent. -/
def updAssoc {α β : Type} [DecidableEq α] (l : List (α × β)) (k : α) (v : β) :
    List (α × β) :=
  match l with
  | [] => [(k, v)]
  | (k2, v2) :: rest => if k2 = k then (k2, v) :: rest else (k2, v2) :: updAssoc rest k v

/-- Generic association-list lookup for slot keys. -/
def slookup {β : Type} (k : Slot) : List (Slot × β) → Option β
  | [] => none
  | (k2, v) :: rest => if k2 = k then some v else slookup k rest

/-- `MemoryStore._find_existing_pref_key`: the first stored key that
near-matches the new key, else the new key itself. -/
def findKeyIn (keys : List Str) (newKey : Str) : Str :=
  match keys with
  | [] => newKey
  | k :: rest => if isNearPrefMatch k newKey then k else findKeyIn rest newKey

/-- One iteration of the `_compact_preference_memories` loop: non-pref
memories accumulate in order; pref memories merge into the insertion-order
dict `pref_latest` keyed by the resolved normalized item. -/
def compactPrefStep (acc : List CMemory × List (Str × CMemory)) (mem : CMemory) :
    List CMemory × List (Str × CMemory) :=
  match prefParse (trimStr mem.fact) with
  | none => (acc.1 ++ [mem], acc.2)
  | some (pol, item0) =>
    let item := trimStr item0
    let key := normalizePrefItem item
    if key = [] then acc
    else
      let resolved := findKeyIn (acc.2.map (fun p => p.1)) key
      match alookup resolved acc.2 with
      | some existing =>
        let existingItem :=
          match prefParse (trimStr existing.fact) with
          | some (_, ei0) => trimStr ei0
          | none => item
        let canon := if item.length ≥ existingItem.length then item else existingItem
        (acc.1, updAssoc acc.2 resolved
          ⟨mkPrefFact pol canon, mem.created_at, mem.source_user_message⟩)
      | none =>
        (acc.1, acc.2 ++
          [(resolved, ⟨mkPrefFact pol item, mem.created_at, mem.source_user_message⟩)])

/-- `MemoryStore._compact_preference_memories` (empty input returns
unchanged, as the early `return`). -/
def compactPrefE (l : List CMemory) : Except Unit (List CMemory) :=
  match l with
  | [] => Except.ok []
  | _ :: _ =>
    let acc := l.foldl compactPrefStep ([], [])
    sortByCreatedE (acc.1 ++ acc.2.map (fun p => p.2))

/-- One iteration of the `_compact_single_value_memories` loop.  For the
name slot, the value is everything after the 14-character prefix
`user's name is` (the fact is known to start with it, so
`low.replace("user's name is", "", 1)` deletes that leading occurrence),
stripped; denylisted values are dropped entirely. -/
def compactSlotStep (acc : List CMemory × List (Slot × CMemory)) (mem : CMemory) :
    List CMemory × List (Slot × CMemory) :=
  match slotGroup mem.fact with
  | none => (acc.1 ++ [mem], acc.2)
  | some g =>
    if g = Slot.name then
      let low := lowerStr (trimStr mem.fact)
      let value := trimStr (low.drop 14)
      if value ∈ invalidNameTokens then acc
      else (acc.1, updAssoc acc.2 g mem)
    else (acc.1, updAssoc acc.2 g mem)

/-- `MemoryStore._compact_single_value_memories`. -/
def compactSlotE (l : List CMemory) : Except Unit (List CMemory) :=
  match l with
  | [] => Except.ok []
  | _ :: _ =>
    let acc := l.foldl compactSlotStep ([], [])
    sortByCreatedE (acc.1 ++ acc.2.map (fun p => p.2))

/-- Map a comparison `TypeError` into the caught exception class. -/
def liftCmp {α : Type} : Except Unit α → Except PyErr α
  | Except.ok a => Except.ok a
  | Except.error _ => Except.error .typeErr

/-- The body of `_load` after a successful `json.loads`: build records,
clean facts, filter invalid memories, run both compactions, and report
whether the count changed (the condition under which `_load` re-saves). -/
def repairRaw (raws : List RawMemory) : Except PyErr (List CMemory × Bool) := do
  let cleaned ← raws.mapM cleanStep
  let kept := cleaned.filter (fun m => !isInvalidMemory m.fact)
  let c1 ← liftCmp (compactPrefE kept)
  let c2 ← liftCmp (compactSlotE c1)
  pure (c2, decide (c2.length ≠ raws.length))

/-- The state of the backing file as seen by `_load`: absent, present but
not valid JSON, or parsed to a JSON value. -/
inductive LoadInput where
  | missing | unparseable | parsed (j : Json)

/-- The `except (json.JSONDecodeError, TypeError, KeyError)` handler of
`_load`: those classes reset the store to the empty collection (with no
re-save); any other exception propagates. -/
def catchLoad (r : Except PyErr (List CMemory × Bool)) :
    Except PyErr (List CMemory × Bool) :=
  match r with
  | Except.ok v => Except.ok v
  | Except.error .attrErr => Except.error .attrErr
  | Except.error _ => Except.ok ([], false)

/-- `MemoryStore._load`: a missing file yields the empty collection; a
`json.loads` failure, and any `TypeError`/`KeyError` in the try block, is
caught and yields the empty collection (without re-saving); any other
exception propagates.  Returns the resulting collection and whether the
repaired form was immediately re-saved. -/
def loadChecked (inp : LoadInput) : Except PyErr (List CMemory × Bool) :=
  match inp with
  | .missing => Except.ok ([], false)
  | .unparseable => Except.ok ([], false)
  | .parsed j => catchLoad (decode j >>= repairRaw)

/-- `_save` serialization of one memory: `asdict` writes the three fields
in declaration order. -/
def encode1 (m : Memory) : Json :=
  Json.obj [(strL "fact", Json.str m.fact),
            (strL "created_at", Json.str m.created_at),
            (strL "source_user_message", Json.str m.source_user_message)]

/-- `_save` serialization of the collection. -/
def encode (ms : List Memory) : Json := Json.arr (ms.map encode1)

/-- The record a well-typed memory decodes to. -/
def toRaw (m : Memory) : RawMemory :=
  ⟨Json.str m.fact, Json.str m.created_at, Json.str m.source_user_message⟩

/-- The cleaned form of a well-typed memory record. -/
def toCMem (m : Memory) : CMemory :=
  ⟨m.fact, Json.str m.created_at, Json.str m.source_user_message⟩

/-! ### Specification-side descriptions used to state the claims -/

/-- Remove the longest common prefix of two strings (the matching phase of
the two-pointer scan). -/
def dropCommon : Str → Str → Str × Str
  | x :: xs, y :: ys => if x = y then dropCommon xs ys else (x :: xs, y :: ys)
  | xs, ys => (xs, ys)

/-- The one-edit scan as the specification describes it: advance both
cursors over matching characters; when one side is exhausted the leftover
costs at most the single allowed divergence; at a mismatch, consume one
character from the longer string (both, on equal lengths) as the single
allowed substitution/insertion/deletion, after which the remainders must
match exactly. -/
def oneEditScanSpec (a b : Str) : Bool :=
  match dropCommon a b with
  | ([], _) => true
  | (_, []) => true
  | (x :: xs, y :: ys) =>
    if a.length > b.length then decide (xs = y :: ys)
    else if b.length > a.length then decide (x :: xs = ys)
    else decide (xs = ys)

/-- The near-duplicate matcher exactly as the claim states it: rules in
order, returning at the first match — equality; length-difference gate;
substring with shorter length at least 4; then the one-edit scan. -/
def nearMatchSpec (a b : Str) : Bool :=
  if a = b then true
  else if ((a.length : ℤ) - b.length).natAbs > 1 then false
  else if (isInfixB a b || isInfixB b a) && min a.length b.length ≥ 4 then true
  else oneEditScanSpec a b

/-- The descending `(score, createdAt)` order between two stored memories
for a given query, used to state that `search` output is sorted. -/
def memKeyGe (q : Str) (m1 m2 : Memory) : Prop :=
  keyGeB (cosineScore (tokenize q) (tokenize m1.fact), m1.created_at)
    (cosineScore (tokenize q) (tokenize m2.fact), m2.created_at) = true

/-- The retrieval filter of `search`: a memory whose score against the
query reaches `min_score`. -/
def passesMin (q : Str) (minScore : ℚ) (m : Memory) : Bool :=
  scoreGeB (cosineScore (tokenize q) (tokenize m.fact)) minScore

/-- A sequence of single-fact `add_facts` calls; each triple is
`(fact, wall-clock reading, source message)`. -/
def runCalls (s : StoreState) (calls : List (Str × Str × Str)) : StoreState :=
  calls.foldl (fun st c => (addFacts st [c.1] (fun _ => c.2.1) c.2.2).1) s

/-! ### Concrete scenario data for witnesses and counterexamples -/

/-- The fact `User's name is Learning` from the claim. -/
def nameLearningFact : Str := strL "User" ++ apos :: strL "s name is Learning"

/-- A concrete timestamp. -/
def ts1 : Str := strL "2024-01-01T10:00:00+00:00"

/-- A later concrete timestamp. -/
def ts2 : Str := strL "2024-01-02T10:00:00+00:00"

/-- A concrete source message. -/
def msg1 : Str := strL "hello"

/-- A store holding one preference memory `User likes pizz`, in sync with
its backing file. -/
def pizzStore : StoreState :=
  ⟨[⟨strL "User likes pizz", ts1, msg1⟩], [⟨strL "User likes pizz", ts1, msg1⟩]⟩

/-- A backing store whose single record carries the three expected keys
but a non-string `fact` value (the JSON text
`[{"fact": 1, "created_at": "...", "source_user_message": "hi"}]`). -/
def badStoreJson : Json :=
  Json.arr [Json.obj [(strL "fact", Json.num 1),
    (strL "created_at", Json.str ts1),
    (strL "source_user_message", Json.str (strL "hi"))]]

/-- A stored memory whose fact is a lower-cased preference sentence: the
load-time repair rewrites it without changing the collection's size. -/
def lcPrefMem : Memory := ⟨strL "user likes pizza", ts1, msg1⟩

/-- The memory `add_facts` stores for `User's name is Learning`. -/
def learnMem : Memory := ⟨nameLearningFact, ts1, msg1⟩

/-- A well-formed preference memory, a fixed point of the repair pass. -/
def fpMem : Memory := ⟨strL "User likes pizza", ts1, msg1⟩

/-- The retrieval example: `User likes pizza`. -/
def pizzaMem : Memory := ⟨strL "User likes pizza", ts1, msg1⟩

/-- The retrieval example: `User likes hiking`. -/
def hikingMem : Memory := ⟨strL "User likes hiking", ts2, msg1⟩

/-- The fact `User's name is Alex`. -/
def nameAlexFact : Str := strL "User" ++ apos :: strL "s name is Alex"

/-- The fact `User's name is Sam`. -/
def nameSamFact : Str := strL "User" ++ apos :: strL "s name is Sam"

/-! ## Theorems -/

theorem ok_bind {ε α β : Type} (a : α) (f : α → Except ε β) :
    (Except.ok (ε := ε) a >>= f) = f a := rfl

theorem decodeItem_encode1 (m : Memory) : decodeItem (encode1 m) = Except.ok (toRaw m) := rfl

theorem toRaw_mk (f c s : Str) :
    toRaw ⟨f, c, s⟩ = ⟨Json.str f, Json.str c, Json.str s⟩ := rfl

/-- Serialization round trip at the JSON level: decoding a saved
collection recovers exactly the saved records. -/
theorem decode_encode (ms : List Memory) :
    decode (encode ms) = Except.ok (ms.map toRaw) := by
  induction ms with
  | nil => rfl
  | cons m rest ih =>
    show (encode1 m :: rest.map encode1).mapM decodeItem = _
    rw [List.mapM_cons, decodeItem_encode1]
    show (rest.map encode1).mapM decodeItem >>= _ = _
    have ihe : (rest.map encode1).mapM decodeItem = Except.ok (rest.map toRaw) := ih
    rw [ihe]
    rfl

/-- Claim C4: an `add_facts` call whose accepted count is 0 (e.g. one whose
only effect is a preference correction) leaves the backing store
untouched, so the mutated in-memory collection diverges from disk; the
save runs exactly when the accepted count is non-zero. -/
theorem C4_zero_accepted_not_persisted :
    ∀ (s : StoreState) (facts : List Str) (times : ℕ → Str) (src : Str),
      ((addFacts s facts times src).2 = 0 →
        (addFacts s facts times src).1.disk = s.disk) ∧
      ((addFacts s facts times src).2 ≠ 0 →
        (addFacts s facts times src).1.disk = (addFacts s facts times src).1.memories) := by
  intro s facts times src
  simp only [addFacts]
  constructor
  · intro h
    simp [h]
  · intro h
    simp [h]

/-- Witness for C4: merging `User likes pizza` into a store holding
`User likes pizz` accepts 0 facts, leaves the disk at its old contents,
and yet the in-memory collection was rewritten, so memory and disk
diverge. -/
theorem C4_zero_accepted_not_persisted_witness :
    (addFacts pizzStore [strL "User likes pizza"] (fun _ => ts2) msg1).1.disk
        = pizzStore.disk ∧
    (addFacts pizzStore [strL "User likes pizza"] (fun _ => ts2) msg1).1.memories
        ≠ (addFacts pizzStore [strL "User likes pizza"] (fun _ => ts2) msg1).1.disk :=
  ⟨(C4_zero_accepted_not_persisted pizzStore [strL "User likes pizza"]
      (fun _ => ts2) msg1).1 (by decide), by decide⟩

/-- Claim C7: the tolerated corruption cases — a missing file, text that
`json.loads` rejects, and records whose key set is not the three `Memory`
fields — all yield the empty collection without raising; but a record
carrying the three expected keys with a non-string `fact` value reaches
`m.fact.replace(...)` and raises an uncaught `AttributeError`, so load
does *not* tolerate every unparseable-shape store. -/
theorem C7_corrupt_store_recovery_and_gap :
    loadChecked .missing = Except.ok ([], false) ∧
    loadChecked .unparseable = Except.ok ([], false) ∧
    loadChecked (.parsed (Json.num 5)) = Except.ok ([], false) ∧
    loadChecked (.parsed (Json.arr [Json.obj [(strL "fact", Json.str ts1)]]))
      = Except.ok ([], false) ∧
    loadChecked (.parsed badStoreJson) = Except.error PyErr.attrErr :=
  ⟨rfl, rfl, rfl, rfl, rfl⟩

/-- Counterexample to claim C1: on the empty store,
`add_facts(["User's name is Learning"], ...)` returns 1 (not 0) and the
name slot is occupied by the denylisted fact. -/
theorem C1_counterexample :
    (addFacts ⟨[], []⟩ [nameLearningFact] (fun _ => ts1) msg1).2 = 1 ∧
    (addFacts ⟨[], []⟩ [nameLearningFact] (fun _ => ts1) msg1).1.memories.filter
      (fun m => slotGroup m.fact == some Slot.name) ≠ [] := by
  exact ⟨rfl, by decide⟩

set_option maxHeartbeats 1000000 in
/-- Claim C1 as amended: `add_facts` applies no denylist — a denylisted
name fact is accepted (count 1) and stored in the name slot on any store
state; the denylist is enforced only by the load-time repair pass, which
drops such a memory (and re-saves, the count having changed). -/
theorem C1_denylisted_name_stored_until_reload :
    ∀ (s : StoreState) (times : ℕ → Str) (src : Str),
      (addFacts s [nameLearningFact] times src).2 = 1 ∧
      (addFacts s [nameLearningFact] times src).1.memories.filter
        (fun m => slotGroup m.fact == some Slot.name)
        = [⟨nameLearningFact, times 0, src⟩] ∧
      (∀ t sm, loadChecked (.parsed (encode [⟨nameLearningFact, t, sm⟩]))
        = Except.ok ([], true)) := by
  intro s times src
  have hload : ∀ t sm, loadChecked (.parsed (encode [⟨nameLearningFact, t, sm⟩]))
      = Except.ok ([], true) := by
    intro t sm
    simp only [loadChecked]
    rw [decode_encode]
    simp only [List.map_cons, List.map_nil]
    rw [toRaw_mk, ok_bind,
      show repairRaw [(⟨Json.str nameLearningFact, Json.str t, Json.str sm⟩ : RawMemory)]
        = Except.ok ([], true) from rfl]
    rfl
  refine ⟨rfl, ?_, hload⟩
  show ((s.memories.filter (fun (m : Memory) => slotGroup m.fact != some Slot.name) ++
      [(⟨nameLearningFact, times 0, src⟩ : Memory)]).filter
        (fun (m : Memory) => slotGroup m.fact == some Slot.name))
      = [⟨nameLearningFact, times 0, src⟩]
  rw [List.filter_append, List.filter_filter]
  have h1 : ∀ m : Memory,
      ((slotGroup m.fact == some Slot.name) && (slotGroup m.fact != some Slot.name))
        = false := by
    intro m
    cases h : slotGroup m.fact == some Slot.name <;> simp [bne, h]
  have h2 : s.memories.filter
      (fun m => (slotGroup m.fact == some Slot.name) && (slotGroup m.fact != some Slot.name))
      = [] := by
    rw [List.filter_eq_nil_iff]
    intro m _
    rw [h1 m]
    exact Bool.false_ne_true
  rw [h2]
  rfl

theorem bind_ok_iff {ε α β : Type} (x : Except ε α) (f : α → Except ε β) (b : β) :
    (x >>= f) = Except.ok b ↔ ∃ a, x = Except.ok a ∧ f a = Except.ok b := by
  cases x with
  | ok a =>
    rw [ok_bind]
    exact ⟨fun h => ⟨a, rfl, h⟩, fun ⟨a2, ha, hf⟩ => by cases ha; exact hf⟩
  | error e =>
    constructor
    · intro h
      exact absurd h (by intro hc; cases hc)
    · rintro ⟨a2, ha, _⟩
      cases ha

/-- Counterexample to claim C8: loading a store whose single record reads
`user likes pizza` rewrites the fact to `User likes pizza` — the repair
pass changed the collection — but the collection's length is unchanged, so
`_load` does not re-save. -/
theorem C8_counterexample :
    loadChecked (.parsed (encode [lcPrefMem]))
      = Except.ok ([⟨strL "User likes pizza", Json.str ts1, Json.str msg1⟩], false) ∧
    lcPrefMem.fact ≠ strL "User likes pizza" := by
  constructor
  · simp only [loadChecked]
    rw [decode_encode]
    simp only [List.map_cons, List.map_nil, lcPrefMem, toRaw_mk]
    rw [ok_bind,
      show repairRaw [(⟨Json.str (strL "user likes pizza"), Json.str ts1,
          Json.str msg1⟩ : RawMemory)]
        = Except.ok ([⟨strL "User likes pizza", Json.str ts1, Json.str msg1⟩], false)
        from rfl]
    rfl
  · decide

/-- Claim C8 as amended: after every successful load the repair pass runs
once, and the repaired form is re-saved iff the repaired collection's
*length* differs from the loaded one's; repairs that only rewrite or
reorder records (keeping the count) are not re-saved. -/
theorem C8_resave_iff_length_changed :
    ∀ (ms : List Memory) (r : List CMemory) (flag : Bool),
      repairRaw (ms.map toRaw) = Except.ok (r, flag) →
      loadChecked (.parsed (encode ms)) = Except.ok (r, flag) ∧
      (flag = true ↔ r.length ≠ ms.length) := by
  intro ms r flag h
  constructor
  · simp only [loadChecked]
    rw [decode_encode, ok_bind, h]
    rfl
  · have h' := h
    rw [repairRaw] at h'
    rw [bind_ok_iff] at h'
    obtain ⟨cleaned, _, h'⟩ := h'
    rw [bind_ok_iff] at h'
    obtain ⟨c1, _, h'⟩ := h'
    rw [bind_ok_iff] at h'
    obtain ⟨c2, _, h'⟩ := h'
    have hp : (c2, decide (c2.length ≠ (ms.map toRaw).length)) = (r, flag) :=
      Except.ok.inj h'
    have hr : c2 = r := congrArg Prod.fst hp
    have hflag : decide (c2.length ≠ (ms.map toRaw).length) = flag :=
      congrArg Prod.snd hp
    rw [← hr, ← hflag, List.length_map]
    simp

/-- Witness for C8: a well-formed store loads to itself with the re-save
flag false. -/
theorem C8_resave_iff_length_changed_witness :
    loadChecked (.parsed (encode [fpMem]))
      = Except.ok ([⟨strL "User likes pizza", Json.str ts1, Json.str msg1⟩], false) ∧
    (false = true ↔
      ([(⟨strL "User likes pizza", Json.str ts1, Json.str msg1⟩ : CMemory)].length
        ≠ [fpMem].length)) :=
  C8_resave_iff_length_changed [fpMem]
    [⟨strL "User likes pizza", Json.str ts1, Json.str msg1⟩] false rfl

/-- Counterexample to claim C9: the collection reached from the empty
store by `add_facts(["User's name is Learning"], ...)` is not a fixed
point of save-then-load — reloading drops the denylisted name memory and
yields the empty collection. -/
theorem C9_counterexample :
    (addFacts ⟨[], []⟩ [nameLearningFact] (fun _ => ts1) msg1).1.memories
      = [learnMem] ∧
    loadChecked (.parsed (encode [learnMem])) = Except.ok ([], true) ∧
    ([] : List CMemory) ≠ [learnMem].map toCMem := by
  refine ⟨rfl, ?_, by simp⟩
  simp only [loadChecked]
  rw [decode_encode]
  simp only [List.map_cons, List.map_nil, learnMem, toRaw_mk]
  rw [ok_bind,
    show repairRaw [(⟨Json.str nameLearningFact, Json.str ts1,
        Json.str msg1⟩ : RawMemory)] = Except.ok ([], true) from rfl]
  rfl

/-- Claim C9 as amended: saving and reloading re-parses exactly the saved
records and re-applies the load-time repair pass — so the round trip is
the identity precisely on collections the repair pass leaves unchanged,
and reachable collections need not be fixed points. -/
theorem C9_roundtrip_is_repair :
    ∀ ms : List Memory,
      loadChecked (.parsed (encode ms)) = catchLoad (repairRaw (ms.map toRaw)) ∧
      (∀ flag, repairRaw (ms.map toRaw) = Except.ok (ms.map toCMem, flag) →
        loadChecked (.parsed (encode ms)) = Except.ok (ms.map toCMem, flag)) := by
  intro ms
  have h1 : loadChecked (.parsed (encode ms)) = catchLoad (repairRaw (ms.map toRaw)) := by
    simp only [loadChecked]
    rw [decode_encode, ok_bind]
  refine ⟨h1, fun flag hf => ?_⟩
  rw [h1, hf]
  rfl

/-- Witness for C9: a repaired, well-formed collection round-trips to
itself. -/
theorem C9_roundtrip_is_repair_witness :
    loadChecked (.parsed (encode [fpMem])) = Except.ok ([fpMem].map toCMem, false) :=
  (C9_roundtrip_is_repair [fpMem]).2 false
    (show repairRaw [(⟨Json.str (strL "User likes pizza"), Json.str ts1,
        Json.str msg1⟩ : RawMemory)]
      = Except.ok ([⟨strL "User likes pizza", Json.str ts1, Json.str msg1⟩], false)
      from rfl)

/-! ### The two-pointer scan: symmetry and the phase description -/

theorem nearScanF_symm :
    ∀ (fuel la lb : ℕ) (a b : Str) (e : ℕ),
      nearScanF fuel la lb a b e = nearScanF fuel lb la b a e := by
  intro fuel
  induction fuel with
  | zero =>
    intro la lb a b e
    cases a <;> cases b <;> simp [nearScanF]
  | succ n ih =>
    intro la lb a b e
    cases a with
    | nil => cases b <;> simp [nearScanF]
    | cons x xs =>
      cases b with
      | nil => simp [nearScanF]
      | cons y ys =>
        simp only [nearScanF]
        by_cases hxy : x = y
        · subst hxy
          simp only [if_pos rfl]
          exact ih la lb xs ys e
        · have hyx : ¬ y = x := fun h => hxy h.symm
          simp only [if_neg hxy, if_neg hyx]
          by_cases he : e + 1 > 1
          · simp [he]
          · simp only [if_neg he]
            rcases Nat.lt_trichotomy la lb with hlt | heq | hgt
            · have h1 : ¬ la > lb := by omega
              have h2 : lb > la := hlt
              simp only [if_neg h1, if_pos h2]
              exact ih la lb (x :: xs) ys (e + 1)
            · subst heq
              have h1 : ¬ la > la := by omega
              simp only [if_neg h1]
              exact ih la la xs ys (e + 1)
            · have h1 : la > lb := hgt
              have h2 : ¬ lb > la := by omega
              simp only [if_pos h1, if_neg h2]
              exact ih la lb xs (y :: ys) (e + 1)

/-! ### Order lemmas for the retrieval sort key -/

theorem scoreLtB_trans {s t u : Score} (h1 : scoreLtB s t = true)
    (h2 : scoreLtB t u = true) : scoreLtB s u = true := by
  simp only [scoreLtB, decide_eq_true_eq] at h1 h2 ⊢
  have hb := s.den_pos
  have hd := t.den_pos
  have hf := u.den_pos
  nlinarith [mul_lt_mul_of_pos_right h1 hf, mul_lt_mul_of_pos_right h2 hb,
    mul_pos hb hd, mul_pos hd hf]

theorem scoreLtB_of_eq_of_lt {s t u : Score} (h1 : scoreEqB s t = true)
    (h2 : scoreLtB t u = true) : scoreLtB s u = true := by
  simp only [scoreLtB, scoreEqB, decide_eq_true_eq] at h1 h2 ⊢
  have hb := s.den_pos
  have hd := t.den_pos
  have hf := u.den_pos
  nlinarith [mul_lt_mul_of_pos_right h2 hb, congrArg (fun z => z * u.den) h1,
    mul_pos hb hd, mul_pos hd hf]

theorem scoreLtB_of_lt_of_eq {s t u : Score} (h1 : scoreLtB s t = true)
    (h2 : scoreEqB t u = true) : scoreLtB s u = true := by
  simp only [scoreLtB, scoreEqB, decide_eq_true_eq] at h1 h2 ⊢
  have hb := s.den_pos
  have hd := t.den_pos
  have hf := u.den_pos
  nlinarith [mul_lt_mul_of_pos_right h1 hf, congrArg (fun z => z * s.den) h2,
    mul_pos hb hd, mul_pos hd hf]

theorem scoreEqB_trans {s t u : Score} (h1 : scoreEqB s t = true)
    (h2 : scoreEqB t u = true) : scoreEqB s u = true := by
  simp only [scoreEqB, decide_eq_true_eq] at h1 h2 ⊢
  have hb := s.den_pos
  have hd := t.den_pos
  have hf := u.den_pos
  nlinarith [congrArg (fun z => z * u.den) h1, congrArg (fun z => z * s.den) h2,
    mul_pos hb hd, mul_pos hd hf]

theorem scoreEqB_symm {s t : Score} (h : scoreEqB s t = true) : scoreEqB t s = true := by
  simp only [scoreEqB, decide_eq_true_eq] at h ⊢
  exact h.symm

theorem score_trichotomy (s t : Score) :
    scoreLtB s t = true ∨ scoreEqB s t = true ∨ scoreLtB t s = true := by
  simp only [scoreLtB, scoreEqB, decide_eq_true_eq]
  rcases lt_trichotomy (s.num * s.num * t.den) (t.num * t.num * s.den) with h | h | h
  · exact Or.inl h
  · exact Or.inr (Or.inl h)
  · exact Or.inr (Or.inr h)

theorem strLtB_irrefl : ∀ a : Str, strLtB a a = false := by
  intro a
  induction a with
  | nil => rfl
  | cons c cs ih => simp [strLtB, ih]

theorem strLtB_asymm : ∀ a b : Str, strLtB a b = true → strLtB b a = false := by
  intro a
  induction a with
  | nil =>
    intro b h
    cases b with
    | nil => rfl
    | cons y ys => rfl
  | cons x xs ih =>
    intro b h
    cases b with
    | nil => cases h
    | cons y ys =>
      simp only [strLtB] at h ⊢
      by_cases hxy : x < y
      · rw [if_neg (lt_asymm hxy), if_pos hxy]
      · rw [if_neg hxy] at h
        by_cases hyx : y < x
        · rw [if_pos hyx] at h
          cases h
        · rw [if_neg hyx] at h
          rw [if_neg hxy, if_neg hyx]
          exact ih ys h

theorem strLtB_trans : ∀ a b c : Str, strLtB a b = true → strLtB b c = true →
    strLtB a c = true := by
  intro a
  induction a with
  | nil =>
    intro b c h1 h2
    cases b with
    | nil => exact h2
    | cons y ys =>
      cases c with
      | nil => cases h2
      | cons z zs => rfl
  | cons x xs ih =>
    intro b c h1 h2
    cases b with
    | nil => cases h1
    | cons y ys =>
      cases c with
      | nil => cases h2
      | cons z zs =>
        simp only [strLtB] at h1 h2 ⊢
        by_cases hxy : x < y
        · by_cases hyz : y < z
          · simp [lt_trans hxy hyz]
          · rw [if_neg hyz] at h2
            by_cases hzy : z < y
            · rw [if_pos hzy] at h2
              cases h2
            · rw [if_neg hzy] at h2
              have hyez : y = z := le_antisymm (le_of_not_lt hzy) (le_of_not_lt hyz)
              subst hyez
              simp [hxy]
        · rw [if_neg hxy] at h1
          by_cases hyx : y < x
          · rw [if_pos hyx] at h1
            cases h1
          · rw [if_neg hyx] at h1
            have hxey : x = y := le_antisymm (le_of_not_lt hyx) (le_of_not_lt hxy)
            subst hxey
            by_cases hyz : x < z
            · simp [hyz]
            · rw [if_neg hyz] at h2 ⊢
              by_cases hzy : z < x
              · rw [if_pos hzy] at h2
                cases h2
              · rw [if_neg hzy] at h2 ⊢
                exact ih ys zs h1 h2

theorem strLtB_connex : ∀ a b : Str, strLtB a b = false → strLtB b a = false →
    a = b := by
  intro a
  induction a with
  | nil =>
    intro b h1 _
    cases b with
    | nil => rfl
    | cons y ys => cases h1
  | cons x xs ih =>
    intro b h1 h2
    cases b with
    | nil => cases h2
    | cons y ys =>
      simp only [strLtB] at h1 h2
      by_cases hxy : x < y
      · rw [if_pos hxy] at h1
        cases h1
      · by_cases hyx : y < x
        · rw [if_pos hyx] at h2
          cases h2
        · rw [if_neg hxy, if_neg hyx] at h1
          rw [if_neg hyx, if_neg hxy] at h2
          have hxey : x = y := le_antisymm (le_of_not_lt hyx) (le_of_not_lt hxy)
          rw [hxey, ih ys h1 h2]

/-- The real value a `Score` represents. -/
noncomputable def scoreVal (s : Score) : ℝ := (s.num : ℝ) / Real.sqrt (s.den : ℝ)

/-- The executable strict comparator agrees with the real-valued order of
the scores it represents, justifying the cross-multiplied squared form. -/
theorem scoreLtB_iff_val (s t : Score) :
    scoreLtB s t = true ↔ scoreVal s < scoreVal t := by
  have hsd0 : (0 : ℝ) < (s.den : ℝ) := by exact_mod_cast s.den_pos
  have htd0 : (0 : ℝ) < (t.den : ℝ) := by exact_mod_cast t.den_pos
  have hsd : (0 : ℝ) < Real.sqrt (s.den : ℝ) := Real.sqrt_pos.mpr hsd0
  have htd : (0 : ℝ) < Real.sqrt (t.den : ℝ) := Real.sqrt_pos.mpr htd0
  have hs : (0 : ℝ) ≤ (s.num : ℝ) := by exact_mod_cast s.num_nonneg
  have ht : (0 : ℝ) ≤ (t.num : ℝ) := by exact_mod_cast t.num_nonneg
  unfold scoreVal
  rw [div_lt_div_iff₀ hsd htd]
  simp only [scoreLtB, decide_eq_true_eq]
  have hexp : ∀ u v : Score, (0 : ℝ) ≤ (u.num : ℝ) → (0 : ℝ) < (v.den : ℝ) →
      ((u.num : ℝ) * Real.sqrt (v.den : ℝ)) ^ 2
        = (u.num : ℝ) * (u.num : ℝ) * (v.den : ℝ) := by
    intro u v _ hv
    rw [mul_pow, Real.sq_sqrt (le_of_lt hv)]
    ring
  constructor
  · intro h
    have hq : (s.num : ℝ) * (s.num : ℝ) * (t.den : ℝ)
        < (t.num : ℝ) * (t.num : ℝ) * (s.den : ℝ) := by exact_mod_cast h
    have hsq : ((s.num : ℝ) * Real.sqrt (t.den : ℝ)) ^ 2
        < ((t.num : ℝ) * Real.sqrt (s.den : ℝ)) ^ 2 := by
      rw [hexp s t hs htd0, hexp t s ht hsd0]
      exact hq
    exact lt_of_pow_lt_pow_left₀ 2 (mul_nonneg ht (le_of_lt hsd)) hsq
  · intro h
    have hsq := pow_lt_pow_left₀ h (mul_nonneg hs (le_of_lt htd)) (by norm_num : 2 ≠ 0)
    rw [hexp s t hs htd0, hexp t s ht hsd0] at hsq
    exact_mod_cast hsq

/-- The executable equality comparator agrees with real-value equality. -/
theorem scoreEqB_iff_val (s t : Score) :
    scoreEqB s t = true ↔ scoreVal s = scoreVal t := by
  constructor
  · intro h
    rcases lt_trichotomy (scoreVal s) (scoreVal t) with hv | hv | hv
    · exfalso
      have := (scoreLtB_iff_val s t).mpr hv
      simp only [scoreLtB, scoreEqB, decide_eq_true_eq] at this h
      exact absurd h (ne_of_lt this)
    · exact hv
    · exfalso
      have := (scoreLtB_iff_val t s).mpr hv
      simp only [scoreLtB, scoreEqB, decide_eq_true_eq] at this h
      exact absurd h.symm (ne_of_lt this)
  · intro h
    rcases score_trichotomy s t with hb | hb | hb
    · exact absurd ((scoreLtB_iff_val s t).mp hb) (by rw [h]; exact lt_irrefl _)
    · exact hb
    · exact absurd ((scoreLtB_iff_val t s).mp hb) (by rw [h]; exact lt_irrefl _)

/-- The executable threshold test agrees with `min_score ≤ score` on real
values. -/
theorem scoreGeB_iff_val (s : Score) (m : ℚ) :
    scoreGeB s m = true ↔ (m : ℝ) ≤ scoreVal s := by
  have hsd0 : (0 : ℝ) < (s.den : ℝ) := by exact_mod_cast s.den_pos
  have hsd : (0 : ℝ) < Real.sqrt (s.den : ℝ) := Real.sqrt_pos.mpr hsd0
  have hs : (0 : ℝ) ≤ (s.num : ℝ) := by exact_mod_cast s.num_nonneg
  have hval0 : (0 : ℝ) ≤ scoreVal s := div_nonneg hs (le_of_lt hsd)
  unfold scoreGeB
  by_cases hm : m ≤ 0
  · rw [if_pos hm]
    simp only [true_iff]
    exact le_trans (by exact_mod_cast hm) hval0
  · rw [if_neg hm]
    have hm0 : (0 : ℝ) < (m : ℝ) := by exact_mod_cast lt_of_not_le hm
    simp only [decide_eq_true_eq]
    unfold scoreVal
    rw [le_div_iff₀ hsd]
    constructor
    · intro h
      have hq : (m : ℝ) * (m : ℝ) * (s.den : ℝ)
          ≤ (s.num : ℝ) * (s.num : ℝ) := by exact_mod_cast h
      have hsq : ((m : ℝ) * Real.sqrt (s.den : ℝ)) ^ 2 ≤ (s.num : ℝ) ^ 2 := by
        rw [mul_pow, Real.sq_sqrt (le_of_lt hsd0)]
        nlinarith [hq]
      exact le_of_pow_le_pow_left₀ (by norm_num) hs hsq
    · intro h
      have hsq := pow_le_pow_left₀ (mul_nonneg (le_of_lt hm0) (le_of_lt hsd)) h 2
      rw [mul_pow, Real.sq_sqrt (le_of_lt hsd0)] at hsq
      have : (m : ℝ) * (m : ℝ) * (s.den : ℝ) ≤ (s.num : ℝ) * (s.num : ℝ) := by
        nlinarith [hsq]
      exact_mod_cast this

theorem keyGeB_total (x y : Score × Str) : keyGeB x y = true ∨ keyGeB y x = true := by
  unfold keyGeB
  rcases score_trichotomy x.1 y.1 with h | h | h
  · right
    simp [h]
  · by_cases hs : strLtB x.2 y.2 = true
    · right
      simp [scoreEqB_symm h, strLtB_asymm _ _ hs]
    · left
      have hs2 : strLtB x.2 y.2 = false := by simpa using hs
      simp [h, hs2]
  · left
    simp [h]

theorem keyGeB_trans {x y z : Score × Str} (h1 : keyGeB x y = true)
    (h2 : keyGeB y z = true) : keyGeB x z = true := by
  unfold keyGeB at h1 h2 ⊢
  simp only [Bool.or_eq_true, Bool.and_eq_true, Bool.not_eq_true'] at h1 h2 ⊢
  rcases h1 with h1 | ⟨h1e, h1s⟩
  · rcases h2 with h2 | ⟨h2e, h2s⟩
    · exact Or.inl (scoreLtB_trans h2 h1)
    · exact Or.inl (scoreLtB_of_eq_of_lt (scoreEqB_symm h2e) h1)
  · rcases h2 with h2 | ⟨h2e, h2s⟩
    · exact Or.inl (scoreLtB_of_lt_of_eq h2 (scoreEqB_symm h1e))
    · right
      refine ⟨scoreEqB_trans h1e h2e, ?_⟩
      by_cases hc : strLtB x.2 z.2 = true
      · exfalso
        by_cases hyx : strLtB y.2 x.2 = true
        · have hcon := strLtB_trans _ _ _ hyx hc
          rw [h2s] at hcon
          cases hcon
        · have hyx2 : strLtB y.2 x.2 = false := by simpa using hyx
          have hxe : x.2 = y.2 := strLtB_connex _ _ h1s hyx2
          rw [hxe] at hc
          rw [h2s] at hc
          cases hc
      · simpa using hc

theorem searchRel_totalP : ∀ x y : Score × Str × Memory, searchRel x y ∨ searchRel y x :=
  fun x y => keyGeB_total (x.1, x.2.1) (y.1, y.2.1)

theorem searchRel_transP : ∀ x y z : Score × Str × Memory,
    searchRel x y → searchRel y z → searchRel x z :=
  fun _ _ _ h1 h2 => keyGeB_trans h1 h2

theorem filterMap_if_eq_map_filter {α β : Type} (p : α → Bool) (F : α → β) :
    ∀ l : List α,
      l.filterMap (fun a => if p a then some (F a) else none) = (l.filter p).map F := by
  intro l
  induction l with
  | nil => rfl
  | cons a rest ih =>
    by_cases hp : p a
    · simp [List.filterMap_cons, List.filter_cons, hp, ih]
    · simp [List.filterMap_cons, List.filter_cons, hp, ih]

/-- Claim C6: the retrieval contract of `search` — at most `topK` results
(exactly `min topK` the number of memories reaching `minScore`); every
result is a stored memory scoring at least `minScore`; when `topK` covers
all qualifying memories every one is returned; results are ordered by
descending `(score, createdAt)` (score ties broken by recency); every
qualifying memory left out scores no better than every returned one; no
qualifying memory is not an error (empty result); and an empty token
vector on either side scores 0. -/
theorem C6_search_contract :
    ∀ (ms : List Memory) (q : Str) (topK : ℕ) (minScore : ℚ),
      (search ms q topK minScore).length
        = min topK (ms.countP (passesMin q minScore)) ∧
      (∀ m ∈ search ms q topK minScore,
        m ∈ ms ∧ passesMin q minScore m = true) ∧
      (ms.countP (passesMin q minScore) ≤ topK →
        ∀ m ∈ ms, passesMin q minScore m = true →
          m ∈ search ms q topK minScore) ∧
      (search ms q topK minScore).Pairwise (memKeyGe q) ∧
      (∀ m ∈ ms, passesMin q minScore m = true →
        m ∉ search ms q topK minScore →
        ∀ m2 ∈ search ms q topK minScore, memKeyGe q m2 m) ∧
      (ms.countP (passesMin q minScore) = 0 → search ms q topK minScore = []) ∧
      (tokenize q = [] → ∀ m : Memory,
        cosineScore (tokenize q) (tokenize m.fact) = zeroScore) ∧
      (∀ m : Memory, tokenize m.fact = [] →
        cosineScore (tokenize q) (tokenize m.fact) = zeroScore) := by
  intro ms q topK minScore
  haveI instT : IsTotal (Score × Str × Memory) searchRel := ⟨searchRel_totalP⟩
  haveI instR : IsTrans (Score × Str × Memory) searchRel :=
    ⟨fun x y z => searchRel_transP x y z⟩
  have hfm : ms.filterMap (fun m =>
      if scoreGeB (cosineScore (tokenize q) (tokenize m.fact)) minScore then
        some (cosineScore (tokenize q) (tokenize m.fact), m.created_at, m)
      else none)
      = (ms.filter (passesMin q minScore)).map
          (fun m => (cosineScore (tokenize q) (tokenize m.fact), m.created_at, m)) :=
    filterMap_if_eq_map_filter (passesMin q minScore)
      (fun m => (cosineScore (tokenize q) (tokenize m.fact), m.created_at, m)) ms
  have hsearch : search ms q topK minScore =
      ((((ms.filter (passesMin q minScore)).map
          (fun m => (cosineScore (tokenize q) (tokenize m.fact),
            m.created_at, m))).insertionSort searchRel).take topK).map
        (fun x => x.2.2) := by
    simp only [search]
    rw [hfm]
  have hsorted := List.sorted_insertionSort searchRel
    ((ms.filter (passesMin q minScore)).map
      (fun m => (cosineScore (tokenize q) (tokenize m.fact), m.created_at, m)))
  have hshape : ∀ x ∈ (((ms.filter (passesMin q minScore)).map
      (fun m => (cosineScore (tokenize q) (tokenize m.fact),
        m.created_at, m))).insertionSort searchRel).take topK,
      x = (cosineScore (tokenize q) (tokenize x.2.2.fact), x.2.2.created_at, x.2.2) := by
    intro x hx
    have hx2 : x ∈ ((ms.filter (passesMin q minScore)).map
        (fun m => (cosineScore (tokenize q) (tokenize m.fact),
          m.created_at, m))).insertionSort searchRel := List.take_subset _ _ hx
    rw [List.mem_insertionSort] at hx2
    obtain ⟨m0, _, rfl⟩ := List.mem_map.mp hx2
    rfl
  have hlen1 : (search ms q topK minScore).length
      = min topK (ms.countP (passesMin q minScore)) := by
    rw [hsearch, List.length_map, List.length_take, List.length_insertionSort,
      List.length_map, List.countP_eq_length_filter]
  have hmem1 : ∀ m ∈ search ms q topK minScore,
      m ∈ ms ∧ passesMin q minScore m = true := by
    rw [hsearch]
    intro m hm
    obtain ⟨x, hxTake, hxm⟩ := List.mem_map.mp hm
    have hx2 : x ∈ ((ms.filter (passesMin q minScore)).map
        (fun m => (cosineScore (tokenize q) (tokenize m.fact),
          m.created_at, m))).insertionSort searchRel := List.take_subset _ _ hxTake
    rw [List.mem_insertionSort] at hx2
    obtain ⟨m0, hm0, hFm⟩ := List.mem_map.mp hx2
    have hmm0 : m = m0 := by
      rw [← hxm, ← hFm]
    rw [hmm0]
    exact ⟨(List.mem_filter.mp hm0).1, (List.mem_filter.mp hm0).2⟩
  have hcomp1 : ms.countP (passesMin q minScore) ≤ topK →
      ∀ m ∈ ms, passesMin q minScore m = true →
        m ∈ search ms q topK minScore := by
    intro hcount m hm hpm
    rw [hsearch]
    have hlen2 : (((ms.filter (passesMin q minScore)).map
        (fun m => (cosineScore (tokenize q) (tokenize m.fact),
          m.created_at, m))).insertionSort searchRel).length ≤ topK := by
      rw [List.length_insertionSort, List.length_map,
        ← List.countP_eq_length_filter]
      exact hcount
    rw [List.take_of_length_le hlen2]
    apply List.mem_map.mpr
    refine ⟨(cosineScore (tokenize q) (tokenize m.fact), m.created_at, m), ?_, rfl⟩
    rw [List.mem_insertionSort]
    exact List.mem_map.mpr ⟨m, List.mem_filter.mpr ⟨hm, hpm⟩, rfl⟩
  have hpair1 : (search ms q topK minScore).Pairwise (memKeyGe q) := by
    rw [hsearch]
    have hst := hsorted.sublist (List.take_sublist topK _)
    rw [List.pairwise_map]
    apply List.Pairwise.imp_of_mem ?_ hst
    intro a b ha hb hrel
    have ha2 := hshape a ha
    have hb2 := hshape b hb
    show memKeyGe q a.2.2 b.2.2
    unfold memKeyGe
    unfold searchRel at hrel
    rw [ha2, hb2] at hrel
    exact hrel
  have hdom1 : ∀ m ∈ ms, passesMin q minScore m = true →
      m ∉ search ms q topK minScore →
      ∀ m2 ∈ search ms q topK minScore, memKeyGe q m2 m := by
    intro m hm hpm hnot m2 hm2
    set L : List (Score × Str × Memory) :=
      ((ms.filter (passesMin q minScore)).map
        (fun m => (cosineScore (tokenize q) (tokenize m.fact),
          m.created_at, m))).insertionSort searchRel with hLdef
    have hLp : List.Pairwise searchRel (L.take topK ++ L.drop topK) := by
      rw [List.take_append_drop]
      exact hsorted
    have hsplit := (List.pairwise_append.mp hLp).2.2
    have hmL : (cosineScore (tokenize q) (tokenize m.fact), m.created_at, m) ∈ L := by
      rw [hLdef, List.mem_insertionSort]
      exact List.mem_map.mpr ⟨m, List.mem_filter.mpr ⟨hm, hpm⟩, rfl⟩
    have hmNotTake : (cosineScore (tokenize q) (tokenize m.fact), m.created_at, m)
        ∉ L.take topK := by
      intro hin
      apply hnot
      rw [hsearch]
      exact List.mem_map.mpr
        ⟨(cosineScore (tokenize q) (tokenize m.fact), m.created_at, m), hin, rfl⟩
    have hmDrop : (cosineScore (tokenize q) (tokenize m.fact), m.created_at, m)
        ∈ L.drop topK := by
      have h2 := hmL
      rw [← List.take_append_drop topK L, List.mem_append] at h2
      rcases h2 with h2 | h2
      · exact absurd h2 hmNotTake
      · exact h2
    rw [hsearch] at hm2
    obtain ⟨x, hxTake, hxm⟩ := List.mem_map.mp hm2
    have hrel := hsplit _ hxTake _ hmDrop
    have hx2 := hshape x hxTake
    show memKeyGe q m2 m
    unfold memKeyGe
    unfold searchRel at hrel
    rw [hx2] at hrel
    rw [← hxm]
    exact hrel
  refine ⟨hlen1, hmem1, hcomp1, hpair1, hdom1, ?_, ?_, ?_⟩
  · intro h0
    apply List.eq_nil_of_length_eq_zero
    rw [hlen1, h0]
    simp
  · intro hq m
    simp [cosineScore, hq]
  · intro m hf
    simp [cosineScore, hf]

/-- Witness for C6: with memories `User likes pizza` and
`User likes hiking` and the query `what pizza toppings`, both memories
qualify at threshold 0 and the pizza memory is returned within the top 5. -/
theorem C6_search_contract_witness :
    pizzaMem ∈ search [pizzaMem, hikingMem] (strL "what pizza toppings") 5 0 :=
  (C6_search_contract [pizzaMem, hikingMem] (strL "what pizza toppings") 5 0).2.2.1
    (by decide) pizzaMem (by decide) (by decide)

/-- Claim C10: the near-duplicate matcher is symmetric — which of two
preference items arrives first never affects whether they merge. -/
theorem C10_near_match_symmetric :
    ∀ a b : Str, isNearPrefMatch a b = isNearPrefMatch b a := by
  intro a b
  unfold isNearPrefMatch
  by_cases hab : a = b
  · subst hab
    rfl
  · have hba : ¬ b = a := fun h => hab h.symm
    simp only [if_neg hab, if_neg hba]
    have hd : ((b.length : ℤ) - a.length).natAbs = ((a.length : ℤ) - b.length).natAbs := by
      omega
    rw [hd]
    by_cases h2 : ((a.length : ℤ) - b.length).natAbs > 1
    · simp [h2]
    · simp only [if_neg h2]
      rw [Bool.or_comm (isInfixB b a) (isInfixB a b), Nat.min_comm b.length a.length]
      by_cases h3 : ((isInfixB a b || isInfixB b a) &&
          decide (min a.length b.length ≥ 4)) = true
      · simp only [if_pos h3]
      · simp only [if_neg h3]
        show nearScanF (a.length + b.length) a.length b.length a b 0
          = nearScanF (b.length + a.length) b.length a.length b a 0
        rw [Nat.add_comm b.length a.length]
        exact nearScanF_symm (a.length + b.length) a.length b.length a b 0

/-- After the single allowed divergence the loop tolerates no further
edit: with `edits = 1` it returns true iff the remainders are equal. -/
theorem nearScanF_edits_one :
    ∀ (u : Str) (v : Str) (la lb fuel : ℕ), fuel ≥ u.length + v.length →
      nearScanF fuel la lb u v 1 = decide (u = v) := by
  intro u
  induction u with
  | nil =>
    intro v la lb fuel _
    cases v <;> simp [nearScanF]
  | cons x xs ih =>
    intro v la lb fuel hf
    cases v with
    | nil => simp [nearScanF]
    | cons y ys =>
      cases fuel with
      | zero =>
        exfalso
        simp [List.length_cons] at hf
      | succ n =>
        simp only [nearScanF]
        by_cases hxy : x = y
        · subst hxy
          simp only [if_pos rfl]
          rw [ih ys la lb n (by simp [List.length_cons] at hf ⊢; omega)]
          simp
        · simp only [if_neg hxy]
          simp [hxy]

theorem dropCommon_cons_eq (x : Char) (xs ys : Str) :
    dropCommon (x :: xs) (x :: ys) = dropCommon xs ys := by
  simp [dropCommon]

/-- Consuming a shared head leaves the spec-side scan unchanged. -/
theorem oneEditScanSpec_cons (x : Char) (xs ys : Str) :
    oneEditScanSpec (x :: xs) (x :: ys) = oneEditScanSpec xs ys := by
  unfold oneEditScanSpec
  rw [dropCommon_cons_eq]
  rcases hdc : dropCommon xs ys with ⟨u, v⟩
  cases u with
  | nil => cases v <;> rfl
  | cons a as =>
    cases v with
    | nil => rfl
    | cons b bs =>
      simp only [List.length_cons]
      by_cases hgt : xs.length > ys.length
      · have hgt1 : xs.length + 1 > ys.length + 1 := by omega
        simp only [if_pos hgt, if_pos hgt1]
      · by_cases hlt : ys.length > xs.length
        · have h1 : ¬ (xs.length + 1 > ys.length + 1) := by omega
          have h2 : ys.length + 1 > xs.length + 1 := by omega
          simp only [if_neg h1, if_pos h2, if_neg hgt, if_pos hlt]
        · have h1 : ¬ (xs.length + 1 > ys.length + 1) := by omega
          have h2 : ¬ (ys.length + 1 > xs.length + 1) := by omega
          simp only [if_neg h1, if_neg h2, if_neg hgt, if_neg hlt]

/-- The code's two-pointer loop computes exactly the phase-structured
description: strip the common prefix; an exhausted side succeeds; at a
divergence consume one character from the longer original (both on equal
lengths) and require the remainders to match exactly. -/
theorem nearScanF_spec :
    ∀ (fuel : ℕ) (a b : Str) (la lb : ℕ), fuel ≥ a.length + b.length →
      (la > lb ↔ a.length > b.length) → (lb > la ↔ b.length > a.length) →
      nearScanF fuel la lb a b 0 = oneEditScanSpec a b := by
  intro fuel
  induction fuel with
  | zero =>
    intro a b la lb hf _ _
    cases a with
    | nil => cases b <;> simp [nearScanF, oneEditScanSpec, dropCommon]
    | cons x xs =>
      cases b with
      | nil => simp [nearScanF, oneEditScanSpec, dropCommon]
      | cons y ys =>
        exfalso
        simp [List.length_cons] at hf
  | succ n ih =>
    intro a b la lb hf hab hba
    cases a with
    | nil => cases b <;> simp [nearScanF, oneEditScanSpec, dropCommon]
    | cons x xs =>
      cases b with
      | nil => simp [nearScanF, oneEditScanSpec, dropCommon]
      | cons y ys =>
        simp only [nearScanF]
        by_cases hxy : x = y
        · subst hxy
          simp only [if_pos rfl]
          rw [oneEditScanSpec_cons]
          apply ih xs ys la lb
          · simp [List.length_cons] at hf ⊢
            omega
          · simp only [List.length_cons] at hab ⊢
            constructor <;> intro h
            · have := hab.mp h; omega
            · exact hab.mpr (by omega)
          · simp only [List.length_cons] at hba ⊢
            constructor <;> intro h
            · have := hba.mp h; omega
            · exact hba.mpr (by omega)
        · simp only [if_neg hxy]
          have hone : ¬ (0 + 1 > 1) := by omega
          simp only [if_neg hone]
          have hspec : oneEditScanSpec (x :: xs) (y :: ys) =
              (if (x :: xs).length > (y :: ys).length then decide (xs = y :: ys)
               else if (y :: ys).length > (x :: xs).length then decide (x :: xs = ys)
               else decide (xs = ys)) := by
            unfold oneEditScanSpec
            rw [show dropCommon (x :: xs) (y :: ys) = (x :: xs, y :: ys) from by
              simp [dropCommon, hxy]]
          rw [hspec]
          have hfl : n ≥ xs.length + (y :: ys).length := by
            simp [List.length_cons] at hf ⊢
            omega
          rcases Nat.lt_trichotomy (x :: xs).length (y :: ys).length with hlt | heq | hgt
          · have c1 : ¬ la > lb := fun h => by have := hab.mp h; omega
            have c2 : lb > la := hba.mpr hlt
            have d1 : ¬ (x :: xs).length > (y :: ys).length := by omega
            simp only [if_neg c1, if_pos c2, if_neg d1, if_pos hlt]
            exact nearScanF_edits_one (x :: xs) ys la lb n
              (by simp [List.length_cons] at hf ⊢; omega)
          · have c1 : ¬ la > lb := fun h => by have := hab.mp h; omega
            have c2 : ¬ lb > la := fun h => by have := hba.mp h; omega
            have d1 : ¬ (x :: xs).length > (y :: ys).length := by omega
            have d2 : ¬ (y :: ys).length > (x :: xs).length := by omega
            simp only [if_neg c1, if_neg c2, if_neg d1, if_neg d2]
            exact nearScanF_edits_one xs ys la lb n
              (by simp [List.length_cons] at hf ⊢; omega)
          · have c1 : la > lb := hab.mpr hgt
            simp only [if_pos c1, if_pos hgt]
            exact nearScanF_edits_one xs (y :: ys) la lb n hfl

/-! ### Trimming and classification lemmas -/

theorem trimStr_idem (l : Str) : trimStr (trimStr l) = trimStr l := by
  show List.rdropWhile isWs ((List.rdropWhile isWs (l.dropWhile isWs)).dropWhile isWs)
      = List.rdropWhile isWs (l.dropWhile isWs)
  have hB : (List.rdropWhile isWs (l.dropWhile isWs)).dropWhile isWs
      = List.rdropWhile isWs (l.dropWhile isWs) := by
    rcases hB0 : List.rdropWhile isWs (l.dropWhile isWs) with _ | ⟨b, bs⟩
    · simp
    · have hpre := List.rdropWhile_prefix isWs (l.dropWhile isWs)
      rw [hB0] at hpre
      obtain ⟨t, ht⟩ := hpre
      have hA : l.dropWhile isWs = b :: (bs ++ t) := by
        rw [← ht]
        simp
      by_cases hwb : isWs b = true
      · exfalso
        have hidem := List.dropWhile_idempotent isWs l
        rw [hA, List.dropWhile_cons_of_pos hwb] at hidem
        have hle := (List.dropWhile_suffix (l := bs ++ t) isWs).length_le
        rw [hidem] at hle
        simp at hle
      · exact List.dropWhile_cons_of_neg hwb
  rw [hB, List.rdropWhile_idempotent]

theorem slotGroup_trim (f : Str) : slotGroup (trimStr f) = slotGroup f := by
  unfold slotGroup
  rw [trimStr_idem]

theorem isPrefixOf_excl {p q low : Str} (hq : q.isPrefixOf low = true)
    (hlen : p.length ≤ q.length) (hnp : p.isPrefixOf q = false) :
    p.isPrefixOf low = false := by
  have hq' : q <+: low := List.isPrefixOf_iff_prefix.mp hq
  have hnp' : ¬ p <+: q := by
    intro h
    rw [← List.isPrefixOf_iff_prefix, hnp] at h
    cases h
  have : ¬ p <+: low := fun hp =>
    hnp' (List.prefix_of_prefix_length_le hp hq' hlen)
  cases hval : p.isPrefixOf low with
  | false => rfl
  | true => exact absurd (List.isPrefixOf_iff_prefix.mp hval) this

/-- A fact with a slot group never parses as a preference: the slot
prefixes are incompatible with `user likes` / `user dislikes`. -/
theorem slotGroup_no_pref (f : Str) (g : Slot) (h : slotGroup f = some g) :
    prefParse (trimStr f) = none := by
  have finishPf : ∀ q : Str, q.isPrefixOf (lowerStr (trimStr f)) = true →
      (strL "user likes").length ≤ q.length →
      (strL "user likes").isPrefixOf q = false →
      (strL "user dislikes").length ≤ q.length →
      (strL "user dislikes").isPrefixOf q = false →
      prefParse (trimStr f) = none := by
    intro q hq l1 p1 l2 p2
    have h1 := isPrefixOf_excl hq l1 p1
    have h2 := isPrefixOf_excl hq l2 p2
    simp only [prefParse]
    simp [h1, h2]
  simp only [slotGroup] at h
  by_cases hc1 : namePfx.isPrefixOf (lowerStr (trimStr f)) = true
  · exact finishPf namePfx hc1 (by decide) (by decide) (by decide) (by decide)
  rw [if_neg hc1] at h
  by_cases hc2 : birthdayPfx.isPrefixOf (lowerStr (trimStr f)) = true
  · exact finishPf birthdayPfx hc2 (by decide) (by decide) (by decide) (by decide)
  rw [if_neg hc2] at h
  by_cases hc3 : (strL "user lives in ").isPrefixOf (lowerStr (trimStr f)) = true
  · exact finishPf (strL "user lives in ") hc3 (by decide) (by decide) (by decide) (by decide)
  rw [if_neg hc3] at h
  by_cases hc4 : ((strL "user works as ").isPrefixOf (lowerStr (trimStr f)) = true ∨
      (strL "user studies ").isPrefixOf (lowerStr (trimStr f)) = true)
  · rcases hc4 with hc4 | hc4
    · exact finishPf (strL "user works as ") hc4 (by decide) (by decide) (by decide) (by decide)
    · exact finishPf (strL "user studies ") hc4 (by decide) (by decide) (by decide) (by decide)
  rw [if_neg hc4] at h
  by_cases hc5 : bestFriendPfx.isPrefixOf (lowerStr (trimStr f)) = true
  · exact finishPf bestFriendPfx hc5 (by decide) (by decide) (by decide) (by decide)
  rw [if_neg hc5] at h
  by_cases hc6 : (strL "user has a dog named ").isPrefixOf (lowerStr (trimStr f)) = true
  · exact finishPf (strL "user has a dog named ") hc6 (by decide) (by decide) (by decide)
      (by decide)
  rw [if_neg hc6] at h
  cases h

/-- A slot fact is non-empty after stripping. -/
theorem slotGroup_trim_ne_nil (f : Str) (g : Slot) (h : slotGroup f = some g) :
    trimStr f ≠ [] := by
  intro h0
  simp only [slotGroup, h0] at h
  simp [lowerStr, namePfx, birthdayPfx, bestFriendPfx, strL] at h

/-- One `add_facts` call carrying one slot fact: every memory of that slot
is removed, the new memory is appended, the call counts 1 accepted fact,
and the result is persisted. -/
theorem addFacts_slot_single (s : StoreState) (f : Str) (g : Slot)
    (times : ℕ → Str) (src : Str) (hg : slotGroup f = some g) :
    addFacts s [f] times src =
      (⟨s.memories.filter (fun m => slotGroup m.fact != some g) ++
          [⟨trimStr f, times 0, src⟩],
        s.memories.filter (fun m => slotGroup m.fact != some g) ++
          [⟨trimStr f, times 0, src⟩]⟩, 1) := by
  have hne : ¬ (trimStr f = []) := slotGroup_trim_ne_nil f g hg
  have hpp : prefParse (trimStr f) = none := slotGroup_no_pref f g hg
  have hsg : slotGroup (trimStr f) = some g := by rw [slotGroup_trim]; exact hg
  unfold addFacts
  unfold addFactsAux
  rw [if_neg hne]
  rw [hpp]
  simp only [Option.isSome_none, Bool.false_eq_true, if_false, hsg]
  rfl

/-- Appending a slot-`g` memory after removing all slot-`g` memories
leaves exactly the new one in the slot. -/
theorem filter_slot_append (ms : List Memory) (g : Slot) (m : Memory)
    (hm : slotGroup m.fact = some g) :
    ((ms.filter (fun x => slotGroup x.fact != some g)) ++ [m]).filter
      (fun x => slotGroup x.fact == some g) = [m] := by
  rw [List.filter_append, List.filter_filter]
  have h2 : ms.filter
      (fun x => (slotGroup x.fact == some g) && (slotGroup x.fact != some g)) = [] := by
    rw [List.filter_eq_nil_iff]
    intro x _
    cases hx : slotGroup x.fact == some g <;> simp [bne, hx]
  rw [h2]
  simp [hm]

/-- Claim C2: slot exclusivity — after any non-empty sequence of
single-slot-fact `add_facts` calls for the same slot, exactly one memory
of that slot remains: the one from the last call; and each such call
removes the previous slot memory, appends its own, counts 1 accepted
fact, and persists the result. -/
theorem C2_slot_exclusivity :
    ∀ (g : Slot) (s : StoreState) (calls : List (Str × Str × Str))
      (hne : calls ≠ []),
      (∀ c ∈ calls, slotGroup c.1 = some g) →
      (runCalls s calls).memories.filter (fun m => slotGroup m.fact == some g)
        = [⟨trimStr (calls.getLast hne).1, (calls.getLast hne).2.1,
            (calls.getLast hne).2.2⟩] ∧
      (∀ (st : StoreState) (c : Str × Str × Str), slotGroup c.1 = some g →
        addFacts st [c.1] (fun _ => c.2.1) c.2.2
          = (⟨st.memories.filter (fun m => slotGroup m.fact != some g) ++
              [⟨trimStr c.1, c.2.1, c.2.2⟩],
             st.memories.filter (fun m => slotGroup m.fact != some g) ++
              [⟨trimStr c.1, c.2.1, c.2.2⟩]⟩, 1)) := by
  intro g s calls hne hall
  constructor
  · rcases List.eq_nil_or_concat calls with rfl | ⟨L, c, rfl⟩
    · exact absurd rfl hne
    · simp only [List.concat_eq_append] at hne hall ⊢
      have hc : slotGroup c.1 = some g := hall c (by simp)
      have hrun : runCalls s (L ++ [c])
          = (addFacts (runCalls s L) [c.1] (fun _ => c.2.1) c.2.2).1 := by
        unfold runCalls
        rw [List.foldl_append]
        rfl
      rw [hrun, addFacts_slot_single (runCalls s L) c.1 g _ _ hc]
      have hm : slotGroup (Memory.mk (trimStr c.1) c.2.1 c.2.2).fact = some g := by
        show slotGroup (trimStr c.1) = some g
        rw [slotGroup_trim]
        exact hc
      rw [filter_slot_append _ g _ hm]
      congr 1
      rw [List.getLast_concat]
  · intro st c hc
    exact addFacts_slot_single st c.1 g _ _ hc

/-- Witness for C2: inserting `User's name is Alex` then
`User's name is Sam` from the empty store leaves exactly the Sam memory
in the name slot. -/
theorem C2_slot_exclusivity_witness :
    (runCalls ⟨[], []⟩ [(nameAlexFact, ts1, msg1),
        (nameSamFact, ts2, msg1)]).memories.filter
      (fun m => slotGroup m.fact == some Slot.name)
      = [⟨trimStr nameSamFact, ts2, msg1⟩] :=
  (C2_slot_exclusivity Slot.name ⟨[], []⟩
    [(nameAlexFact, ts1, msg1), (nameSamFact, ts2, msg1)]
    (by simp) (by decide)).1

/-! ### Canonical-label selection lemmas -/

theorem foldl_longest_mem (items : List Str) :
    ∀ init : Str,
      (items.foldl (fun cur ei => if ei.length > cur.length then ei else cur) init = init
       ∨ items.foldl (fun cur ei => if ei.length > cur.length then ei else cur) init ∈ items) := by
  induction items with
  | nil => intro init; left; rfl
  | cons e rest ih =>
    intro init
    simp only [List.foldl_cons]
    by_cases he : e.length > init.length
    · rw [if_pos he]
      rcases ih e with h | h
      · right; rw [h]; simp
      · right; simp [h]
    · rw [if_neg he]
      rcases ih init with h | h
      · left; exact h
      · right; simp [h]

theorem foldl_longest_ge_init (items : List Str) :
    ∀ init : Str, init.length ≤
      (items.foldl (fun cur ei => if ei.length > cur.length then ei else cur) init).length := by
  induction items with
  | nil => intro init; exact le_refl _
  | cons e rest ih =>
    intro init
    simp only [List.foldl_cons]
    by_cases he : e.length > init.length
    · rw [if_pos he]
      exact le_trans (Nat.le_of_lt he) (ih e)
    · rw [if_neg he]
      exact ih init

theorem foldl_longest_ge_all (items : List Str) :
    ∀ (init : Str) (e : Str), e ∈ items → e.length ≤
      (items.foldl (fun cur ei => if ei.length > cur.length then ei else cur) init).length := by
  induction items with
  | nil => intro _ e he; cases he
  | cons x rest ih =>
    intro init e he
    simp only [List.foldl_cons]
    rcases List.mem_cons.mp he with rfl | he2
    · by_cases hx : e.length > init.length
      · rw [if_pos hx]
        exact foldl_longest_ge_init rest e
      · rw [if_neg hx]
        exact le_trans (Nat.le_of_not_lt hx) (foldl_longest_ge_init rest init)
    · by_cases hx : x.length > init.length
      · rw [if_pos hx]; exact ih x e he2
      · rw [if_neg hx]; exact ih init e he2

theorem canonicalOf_ge_item (item : Str) (items : List Str) :
    item.length ≤ (canonicalOf item items).length := by
  simp only [canonicalOf]
  split
  · exact le_refl _
  · rename_i hno
    exact le_of_not_le hno

theorem canonicalOf_ge_all (item : Str) (items : List Str) :
    ∀ e ∈ items, e.length ≤ (canonicalOf item items).length := by
  intro e he
  simp only [canonicalOf]
  split
  · rename_i hyes
    exact le_trans (foldl_longest_ge_all items item e he) hyes
  · exact foldl_longest_ge_all items item e he

theorem canonicalOf_mem (item : Str) (items : List Str) :
    canonicalOf item items = item ∨ canonicalOf item items ∈ items := by
  simp only [canonicalOf]
  split
  · left; rfl
  · rename_i hno
    rcases foldl_longest_mem items item with h | h
    · exact absurd (ge_of_eq (congrArg List.length h.symm)) hno
    · right; exact h

theorem canonicalOf_new_wins (item : Str) (items : List Str)
    (h : ∀ e ∈ items, e.length ≤ item.length) : canonicalOf item items = item := by
  simp only [canonicalOf]
  split
  · rfl
  · rename_i hno
    exfalso
    rcases foldl_longest_mem items item with hm | hm
    · exact hno (ge_of_eq (congrArg List.length hm.symm))
    · exact hno (h _ hm)

/-! ### Preference-upsert lemmas -/

theorem canonicalOf_nil (item : Str) : canonicalOf item [] = item := by
  simp [canonicalOf]

theorem prefParse_nil : prefParse ([] : Str) = none := rfl

/-- One `add_facts` call carrying one preference fact routes it to the
upsert, adds its contribution, and persists iff that contribution is
non-zero. -/
theorem addFacts_pref_single (s : StoreState) (f : Str) (times : ℕ → Str) (src : Str)
    (hp : (prefParse (trimStr f)).isSome = true) :
    addFacts s [f] times src =
      (⟨(upsertPref s.memories (trimStr f) (times 0) src).1,
        if (upsertPref s.memories (trimStr f) (times 0) src).2 ≠ 0 then
          (upsertPref s.memories (trimStr f) (times 0) src).1
        else s.disk⟩,
       (upsertPref s.memories (trimStr f) (times 0) src).2) := by
  have hne : ¬ (trimStr f = []) := by
    intro h0
    rw [h0, prefParse_nil] at hp
    cases hp
  unfold addFacts
  simp only [addFactsAux]
  rw [if_neg hne, if_pos hp]
  simp only [Nat.zero_add]

/-- The preference upsert, characterized: no near-duplicate means append
with the stated item and count 1; at least one near-duplicate means the
first matched index is rewritten in place to the canonical label with the
new polarity/timestamp/source, every other matched index is deleted,
non-matched memories survive in order, and the count is 0. -/
theorem upsertPref_char (ms : List Memory) (f : Str) (now src : Str)
    (pol : Bool) (item0 : Str)
    (hp : prefParse (trimStr f) = some (pol, item0))
    (hkey : normalizePrefItem (trimStr item0) ≠ []) :
    (prefScan ms (normalizePrefItem (trimStr item0)) = [] →
      upsertPref ms f now src =
        (ms ++ [⟨mkPrefFact pol (trimStr item0), now, src⟩], 1)) ∧
    (∀ (i0 : ℕ) (e0 : Str) (rest : List (ℕ × Str)),
      prefScan ms (normalizePrefItem (trimStr item0)) = (i0, e0) :: rest →
      upsertPref ms f now src =
        (ms.enum.filterMap (fun p =>
          if p.1 ∈ (prefScan ms (normalizePrefItem (trimStr item0))).map
              (fun q => q.1) then
            (if p.1 = i0 then
              some ⟨mkPrefFact pol (canonicalOf (trimStr item0)
                ((prefScan ms (normalizePrefItem (trimStr item0))).map (fun q => q.2))),
                now, src⟩
            else none)
          else some p.2), 0)) := by
  have hitem : ¬ (trimStr item0 = []) := by
    intro h0
    exact hkey (by rw [h0]; rfl)
  constructor
  · intro hscan
    unfold upsertPref
    rw [hp]
    dsimp only
    rw [if_neg hitem, if_neg hkey, hscan]
    simp [canonicalOf_nil]
  · intro i0 e0 rest hscan
    unfold upsertPref
    rw [hp]
    dsimp only
    rw [if_neg hitem, if_neg hkey, hscan]
    simp only [List.map_cons]
    rw [Prod.mk.injEq]
    refine ⟨?_, rfl⟩
    apply List.filterMap_congr
    intro p _
    by_cases h1 : p.1 = i0
    · have hmem : p.1 ∈ i0 :: rest.map (fun q => q.1) := by rw [h1]; simp
      simp only [if_pos h1, hscan, List.map_cons, if_pos hmem]
    · by_cases h2 : p.1 ∈ rest.map (fun q => q.1)
      · have hmem : p.1 ∈ i0 :: rest.map (fun q => q.1) := by simp [h2]
        simp only [if_neg h1, if_pos h2, hscan, List.map_cons, if_pos hmem]
      · have hmem : ¬ p.1 ∈ i0 :: rest.map (fun q => q.1) := by simp [h1, h2]
        simp only [if_neg h1, if_neg h2, hscan, List.map_cons, if_neg hmem]

/-- Claim C3: processing a preference fact through `add_facts` — with no
near-duplicate stored item it appends a new memory with the stated
polarity and item and counts 1 (persisting); with near-duplicates it
rewrites the first matched memory in place with the new polarity,
timestamp, source message and the canonical label, deletes every other
matched memory, counts 0 and does not persist; the canonical label is the
longest of the matched items and the new item, the new item winning any
tie with the stored ones. -/
theorem C3_preference_upsert :
    ∀ (s : StoreState) (f : Str) (times : ℕ → Str) (src : Str)
      (pol : Bool) (item0 : Str),
      prefParse (trimStr f) = some (pol, item0) →
      normalizePrefItem (trimStr item0) ≠ [] →
      (prefScan s.memories (normalizePrefItem (trimStr item0)) = [] →
        addFacts s [f] times src =
          (⟨s.memories ++ [⟨mkPrefFact pol (trimStr item0), times 0, src⟩],
            s.memories ++ [⟨mkPrefFact pol (trimStr item0), times 0, src⟩]⟩, 1)) ∧
      (∀ (i0 : ℕ) (e0 : Str) (rest : List (ℕ × Str)),
        prefScan s.memories (normalizePrefItem (trimStr item0)) = (i0, e0) :: rest →
        addFacts s [f] times src =
          (⟨s.memories.enum.filterMap (fun p =>
              if p.1 ∈ (prefScan s.memories (normalizePrefItem (trimStr item0))).map
                  (fun q => q.1) then
                (if p.1 = i0 then
                  some ⟨mkPrefFact pol (canonicalOf (trimStr item0)
                    ((prefScan s.memories (normalizePrefItem (trimStr item0))).map
                      (fun q => q.2))), times 0, src⟩
                else none)
              else some p.2),
            s.disk⟩, 0)) ∧
      (trimStr item0).length ≤ (canonicalOf (trimStr item0)
        ((prefScan s.memories (normalizePrefItem (trimStr item0))).map
          (fun q => q.2))).length ∧
      (∀ e ∈ (prefScan s.memories (normalizePrefItem (trimStr item0))).map
          (fun q => q.2),
        e.length ≤ (canonicalOf (trimStr item0)
          ((prefScan s.memories (normalizePrefItem (trimStr item0))).map
            (fun q => q.2))).length) ∧
      (canonicalOf (trimStr item0)
          ((prefScan s.memories (normalizePrefItem (trimStr item0))).map
            (fun q => q.2)) = trimStr item0 ∨
       canonicalOf (trimStr item0)
          ((prefScan s.memories (normalizePrefItem (trimStr item0))).map
            (fun q => q.2)) ∈
        (prefScan s.memories (normalizePrefItem (trimStr item0))).map
          (fun q => q.2)) ∧
      ((∀ e ∈ (prefScan s.memories (normalizePrefItem (trimStr item0))).map
          (fun q => q.2), e.length ≤ (trimStr item0).length) →
        canonicalOf (trimStr item0)
          ((prefScan s.memories (normalizePrefItem (trimStr item0))).map
            (fun q => q.2)) = trimStr item0) := by
  intro s f times src pol item0 hp hkey
  have hp2 : prefParse (trimStr (trimStr f)) = some (pol, item0) := by
    rw [trimStr_idem]
    exact hp
  have hup := upsertPref_char s.memories (trimStr f) (times 0) src pol item0 hp2 hkey
  have hadd := addFacts_pref_single s f times src (by rw [hp]; rfl)
  refine ⟨?_, ?_, canonicalOf_ge_item _ _, canonicalOf_ge_all _ _,
    canonicalOf_mem _ _, canonicalOf_new_wins _ _⟩
  · intro hscan
    rw [hadd, hup.1 hscan]
    simp
  · intro i0 e0 rest hscan
    rw [hadd, hup.2 i0 e0 rest hscan]
    simp

/-- Witness for C3: merging `User likes pizza` into a store holding
`User likes pizz` rewrites that memory in place to the longer canonical
label with polarity `likes` and the new timestamp/source, accepts 0, and
leaves the disk untouched. -/
theorem C3_preference_upsert_witness :
    addFacts pizzStore [strL "User likes pizza"] (fun _ => ts2) msg1 =
      (⟨[⟨mkPrefFact true (strL "pizza"), ts2, msg1⟩], pizzStore.disk⟩, 0) := by
  have h := (C3_preference_upsert pizzStore (strL "User likes pizza")
    (fun _ => ts2) msg1 true (strL "pizza") (by decide) (by decide)).2.1
    0 (strL "pizz") [] (by decide)
  rw [h]
  decide

/-- Claim C5: the near-duplicate matcher applies its rules in order —
equality, the length-difference gate, the substring rule with shorter
length at least 4, then the one-substitution/insertion/deletion two-pointer
scan — and in particular `pizz` and `pizza` match. -/
theorem C5_matcher_rules_in_order :
    (∀ a b : Str, isNearPrefMatch a b = nearMatchSpec a b) ∧
    isNearPrefMatch (strL "pizz") (strL "pizza") = true := by
  constructor
  · intro a b
    unfold isNearPrefMatch nearMatchSpec
    split_ifs
    · rfl
    · rfl
    · rfl
    · exact nearScanF_spec (a.length + b.length) a b a.length b.length
        (le_refl _) Iff.rfl Iff.rfl
  · decide

end MemStore
